import Mathlib

/-!
Verification of the reference-numeral correlation engine of the Caption
repository.

Strings are modelled as `List Char`; Python's numeric types (OCR confidence
scores, box coordinates, areas) are modelled as exact rationals `ℚ`.  Python
computes these in IEEE double precision; every comparison appearing in the
code (`confidence < 0.6`, `overlap > 0.5`, `digit_count / total >= 0.7`) is
modelled as the corresponding exact rational comparison, which agrees with
the floating-point computation except on inputs of astronomical size
(a digit ratio within 2^-53 of 7/10 needs strings of length above 10^15).

Character classes of Python's `re` module (`\w`, `\s`, `\d`) and the
classifier `str.isdigit` are modelled on the ASCII range.
-/

/-! ## Python string primitives -/

/-- Python regex class `\s` (ASCII range), also `str.strip`'s whitespace. -/
def isSpaceC (c : Char) : Bool :=
  c = ' ' || c = '\t' || c = '\n' || c = '\r' || c = '\x0b' || c = '\x0c'

/-- Python regex class `\w` (ASCII range): letters, digits, underscore. -/
def isWordC (c : Char) : Bool :=
  c.isAlphanum || c = '_'

/-- Python regex class `\d` and the per-character test of `str.isdigit`
(ASCII range). -/
def isDigitC (c : Char) : Bool :=
  c.isDigit

/-- Python `str.strip()`: drop leading and trailing whitespace. -/
def pyStrip (l : List Char) : List Char :=
  ((l.dropWhile isSpaceC).reverse.dropWhile isSpaceC).reverse

/-- Python `str.isdigit()`: nonempty and all digits. -/
def pyIsDigit (l : List Char) : Bool :=
  !l.isEmpty && l.all isDigitC

/-- Python `str.lower()` (ASCII range). -/
def pyLower (l : List Char) : List Char :=
  l.map Char.toLower

/-- Python `str.split(',')`: split on every comma, keeping empty pieces. -/
def pySplitComma : List Char → List (List Char)
  | [] => [[]]
  | c :: r =>
    if c = ',' then [] :: pySplitComma r
    else
      match pySplitComma r with
      | p :: ps => (c :: p) :: ps
      | [] => [[c]]

/-- Python `str.replace(a, b)` for single characters. -/
def pyReplaceChar (l : List Char) (a b : Char) : List Char :=
  l.map fun c => if c = a then b else c

/-- Digit run with optional single underscores between digits
(`digitpart` of Python's float literal grammar, PEP 515). -/
def uDigitsAux : List Char → Bool
  | [] => true
  | '_' :: r =>
    match r with
    | c :: r' => isDigitC c && uDigitsAux r'
    | [] => false
  | c :: r => isDigitC c && uDigitsAux r

/-- Nonempty `digitpart`: digit, then digits with single interior
underscores. -/
def isUDigits : List Char → Bool
  | [] => false
  | c :: r => isDigitC c && uDigitsAux r

/-- Drop one optional leading sign. -/
def dropSign : List Char → List Char
  | '+' :: r => r
  | '-' :: r => r
  | l => l

/-- Case-insensitive equality with an (already lowercase) literal. -/
def ciEqLit (l : List Char) (lit : List Char) : Bool :=
  pyLower l = lit

/-- Mantissa of a float literal: `digitpart`, `digitpart '.'`,
`digitpart '.' digitpart` or `'.' digitpart`. -/
def mantissaOk (m : List Char) : Bool :=
  let ip := m.takeWhile (fun c => c ≠ '.')
  match m.drop ip.length with
  | [] => isUDigits ip
  | '.' :: fp =>
    (isUDigits ip && (fp.isEmpty || isUDigits fp)) || (ip.isEmpty && isUDigits fp)
  | _ => false

/-- Exponent part: `e`/`E`, optional sign, `digitpart`. -/
def exponentOk : List Char → Bool
  | c :: r => (c = 'e' || c = 'E') && isUDigits (dropSign r)
  | [] => false

/-- Python `float(str)` acceptance: outer whitespace stripped, one optional
sign, then `inf`/`infinity`/`nan` (case-insensitive) or a decimal literal
with optional exponent.  Models exactly which strings `float()` converts
without raising `ValueError`. -/
def pyFloatAccepts (s : List Char) : Bool :=
  let l := dropSign (pyStrip s)
  if ciEqLit l "inf".toList || ciEqLit l "infinity".toList || ciEqLit l "nan".toList then
    true
  else
    let m := l.takeWhile (fun c => c ≠ 'e' ∧ c ≠ 'E')
    mantissaOk m && ((l.drop m.length).isEmpty || exponentOk (l.drop m.length))

/-- Exact value of a string of digits. -/
def natOfDigits (l : List Char) : ℕ :=
  l.foldl (fun n c => 10 * n + (c.toNat - '0'.toNat)) 0

/-- Python `float(s)` on a string made of digits and periods only (the
alphabet of corrected OCR text): succeeds iff there is at least one digit
and at most one period; the value is exact (in the source the value is the
nearest double; no claim depends on it). -/
def floatOfDigitDot (l : List Char) : Option ℚ :=
  if l.any isDigitC && l.count '.' ≤ 1 then
    let ip := l.takeWhile (fun c => c ≠ '.')
    let fp := (l.drop ip.length).drop 1
    some ((natOfDigits ip : ℚ) + (natOfDigits fp : ℚ) / (10 : ℚ) ^ fp.length)
  else
    none

/-! ## `num.py`: `NumberDetector.is_number` -/

/-- `re.sub(r'[^\w.]', '', text)` in `is_number`: keep word characters and
periods. -/
def cleanWordDot (l : List Char) : List Char :=
  l.filter fun c => isWordC c || c = '.'

/-- `NumberDetector.is_number` (`src/num.py` lines 46-61): strip characters
outside `[\w.]`, accept if the result converts to a float, otherwise accept
iff the result is nonempty and at least 70% of its characters are digits. -/
def is_number (text : List Char) : Bool :=
  let cleaned_text := cleanWordDot text
  if pyFloatAccepts cleaned_text then true
  else
    let digit_count := (cleaned_text.filter isDigitC).length
    let total_chars := cleaned_text.length
    if total_chars = 0 then false
    else decide (7 * total_chars ≤ 10 * digit_count)

/-! ## `num.py`: `NumberDetector.correct_common_ocr_errors` -/

/-- The `corrections` table (`src/num.py` lines 64-68), in dict insertion
order. -/
def corrections : List (Char × Char) :=
  [('b', '6'), ('B', '6'), ('o', '0'), ('O', '0'), ('l', '1'), ('I', '1'),
   ('S', '5'), ('s', '5'), ('Z', '2'), ('z', '2'), ('g', '9'), ('G', '9'),
   ('q', '9'), ('Q', '9'), ('D', '0'), ('i', '1'), ('T', '7'), ('t', '7')]

/-- `NumberDetector.correct_common_ocr_errors` (`src/num.py` lines 63-75):
apply each `str.replace` of the table in order, then `re.sub(r'[^\d.]', '')`
keeps only digits and periods. -/
def correct_common_ocr_errors (text : List Char) : List Char :=
  let corrected := corrections.foldl (fun acc p => pyReplaceChar acc p.1 p.2) text
  corrected.filter fun c => isDigitC c || c = '.'

/-- The substitution table as a per-character function, following the
spec's wording: each visually confusable glyph maps to its digit, any other
character is unchanged. -/
def specGlyphDigit (c : Char) : Char :=
  match corrections.find? (fun p => p.1 = c) with
  | some p => p.2
  | none => c

/-! ## `num.py`: `NumberDetector.filter_valid_numbers` -/

/-- One PaddleOCR result line as consumed by `filter_valid_numbers`: the
`'bbox'` and `'text'` dict entries may be absent (`none`); `'text'` holds
the pair of recognised text and confidence. -/
structure OcrLine where
  bbox : Option (List (ℚ × ℚ))
  text : Option (List Char × ℚ)

/-- A validated detection record (`valid_numbers` entries,
`src/num.py` lines 94-100). -/
structure ValidNumber where
  bbox : List (ℚ × ℚ)
  original_text : List Char
  corrected_text : List Char
  number_value : ℚ
  confidence : ℚ
deriving DecidableEq

/-- `NumberDetector.filter_valid_numbers` (`src/num.py` lines 77-104):
skip lines missing `'bbox'` or `'text'`, skip confidence below 0.6, correct
the text, keep it only when `is_number` holds, it is nonempty and `float()`
succeeds on it; each line is handled independently (`continue`). -/
def filter_valid_numbers : List OcrLine → List ValidNumber
  | [] => []
  | line :: rest =>
    match line.bbox, line.text with
    | some bbox, some (text, confidence) =>
      if confidence < 6 / 10 then filter_valid_numbers rest
      else
        let corrected_text := correct_common_ocr_errors text
        if is_number corrected_text && corrected_text.length > 0 then
          match floatOfDigitDot corrected_text with
          | some number_value =>
            ⟨bbox, text, corrected_text, number_value, confidence⟩ :: filter_valid_numbers rest
          | none => filter_valid_numbers rest
        else filter_valid_numbers rest
    | _, _ => filter_valid_numbers rest

/-! ## `num.py`: `calculate_overlap` and `remove_duplicate_detections` -/

/-- The axis-aligned rectangle `[min x, min y, max x, max y]` produced by
`bbox_to_coords`. -/
structure Rect where
  xmin : ℚ
  ymin : ℚ
  xmax : ℚ
  ymax : ℚ

/-- `bbox_to_coords` (`src/num.py` lines 138-141): min/max of the point
coordinates.  Python's `min`/`max` raise on an empty list; the empty case is
out of the modelled domain and returns the zero rectangle. -/
def bbox_to_coords : List (ℚ × ℚ) → Rect
  | [] => ⟨0, 0, 0, 0⟩
  | p :: ps =>
    ⟨ps.foldl (fun m q => min m q.1) p.1,
     ps.foldl (fun m q => min m q.2) p.2,
     ps.foldl (fun m q => max m q.1) p.1,
     ps.foldl (fun m q => max m q.2) p.2⟩

/-- Area of a coordinate rectangle, `(coords[2]-coords[0])*(coords[3]-coords[1])`. -/
def rectArea (r : Rect) : ℚ :=
  (r.xmax - r.xmin) * (r.ymax - r.ymin)

/-- The intersection window `x1, y1, x2, y2` of `calculate_overlap`. -/
def interWindow (r1 r2 : Rect) : Rect :=
  ⟨max r1.xmin r2.xmin, max r1.ymin r2.ymin, min r1.xmax r2.xmax, min r1.ymax r2.ymax⟩

/-- The arithmetic core of `calculate_overlap` on the two coordinate
rectangles: 0 when the intersection window is degenerate, else
intersection over union, guarding a nonpositive union with 0. -/
def rectIoU (coords1 coords2 : Rect) : ℚ :=
  let w := interWindow coords1 coords2
  if w.xmax ≤ w.xmin ∨ w.ymax ≤ w.ymin then 0
  else
    let intersection := (w.xmax - w.xmin) * (w.ymax - w.ymin)
    let union := rectArea coords1 + rectArea coords2 - intersection
    if 0 < union then intersection / union else 0

/-- `calculate_overlap` (`src/num.py` lines 137-158): IoU of the two
axis-aligned bounding rectangles derived from the boxes. -/
def calculate_overlap (bbox1 bbox2 : List (ℚ × ℚ)) : ℚ :=
  rectIoU (bbox_to_coords bbox1) (bbox_to_coords bbox2)

/-- Python `list.sort(key=confidence, reverse=True)` is a stable descending
sort; modelled by stable insertion. -/
def insertByConfDesc (x : ValidNumber) : List ValidNumber → List ValidNumber
  | [] => [x]
  | y :: r =>
    if y.confidence ≤ x.confidence then x :: y :: r
    else y :: insertByConfDesc x r

/-- Stable sort of the detections, descending by confidence. -/
def sortByConfDesc : List ValidNumber → List ValidNumber
  | [] => []
  | x :: xs => insertByConfDesc x (sortByConfDesc xs)

/-- The greedy acceptance loop of `remove_duplicate_detections`
(`src/num.py` lines 161-168): keep a detection iff its overlap with every
already kept detection does not exceed the threshold. -/
def dedupAccept (thr : ℚ) : List ValidNumber → List ValidNumber → List ValidNumber
  | filtered, [] => filtered
  | filtered, num1 :: rest =>
    if filtered.any (fun num2 => thr < calculate_overlap num1.bbox num2.bbox) then
      dedupAccept thr filtered rest
    else
      dedupAccept thr (filtered ++ [num1]) rest

/-- `NumberDetector.remove_duplicate_detections` (`src/num.py` lines
133-170); the source's default threshold is 0.5. -/
def remove_duplicate_detections (numbers : List ValidNumber) (overlap_threshold : ℚ) :
    List ValidNumber :=
  dedupAccept overlap_threshold [] (sortByConfDesc numbers)

/-! ## The extraction regular expression

Both extractors scan text with (variants of) the pattern

  `(?:[\w\s\-,;:\(\)]*?\s(?:indicated\s+(?:generally\s+)?as|identified\s+as|as|no\.?|reference\s+numeral|shown\s+as)\s+)?`
  `([\w\s\-\.,;:\(\)]+?)\s*(\d{1,4}(?:,\s*\d{1,4})*)`

(`src/extract_labels.py` lines 22-25; `src/output/labelss.py` lines
331-336, whose first pattern omits the optional lead-in group).  The
matcher below is the hand compilation of this pattern with Python's
backtracking order: the optional group is tried before its absence, `*?`
and `+?` grow lazily, `\d{1,4}` and the trailing star munch greedily (no
later pattern element can profit from their backtracking, since nothing
follows the second capture group and a shorter munch always leaves a
non-matching character in place), and the alternatives of the lead-in
keyword are tried left to right (they are pairwise prefix-disjoint, so the
first that matches is the only one that can).  `finditer` yields
non-overlapping matches left to right. -/

/-- Class `[\w\s\-,;:\(\)]` of the optional lead-in. -/
def isPreClass (c : Char) : Bool :=
  isWordC c || isSpaceC c || c = '-' || c = ',' || c = ';' || c = ':' || c = '(' || c = ')'

/-- Class `[\w\s\-\.,;:\(\)]` of the phrase capture group. -/
def isPhraseClass (c : Char) : Bool :=
  isPreClass c || c = '.'

/-- Match a literal keyword, case-sensitively or (for patterns compiled
with `re.IGNORECASE`) case-insensitively; keywords are given lowercase. -/
def litMatch (ci : Bool) : List Char → List Char → Option (List Char)
  | [], l => some l
  | k :: ks, c :: cs =>
    if (if ci then c.toLower = k else c = k) then litMatch ci ks cs else none
  | _ :: _, [] => none

/-- `\s+` followed by material that cannot start with whitespace: the
greedy munch never has to backtrack. -/
def spacesOne : List Char → Option (List Char)
  | c :: r => if isSpaceC c then some (r.dropWhile isSpaceC) else none
  | [] => none

/-- `indicated\s+(?:generally\s+)?as`. -/
def altIndicated (ci : Bool) (l : List Char) : Option (List Char) :=
  match litMatch ci "indicated".toList l with
  | none => none
  | some r =>
    match spacesOne r with
    | none => none
    | some r1 =>
      match
        (match litMatch ci "generally".toList r1 with
         | none => none
         | some r2 =>
           match spacesOne r2 with
           | none => none
           | some r3 => litMatch ci "as".toList r3) with
      | some r4 => some r4
      | none => litMatch ci "as".toList r1

/-- `identified\s+as`. -/
def altIdentified (ci : Bool) (l : List Char) : Option (List Char) :=
  match litMatch ci "identified".toList l with
  | none => none
  | some r =>
    match spacesOne r with
    | none => none
    | some r1 => litMatch ci "as".toList r1

/-- `no\.?`: the optional period is taken greedily; skipping it only to
meet the following `\s+` cannot succeed where taking it failed. -/
def altNo (ci : Bool) (l : List Char) : Option (List Char) :=
  match litMatch ci "no".toList l with
  | none => none
  | some r =>
    match r with
    | '.' :: r' => some r'
    | _ => some r

/-- `reference\s+numeral`. -/
def altReference (ci : Bool) (l : List Char) : Option (List Char) :=
  match litMatch ci "reference".toList l with
  | none => none
  | some r =>
    match spacesOne r with
    | none => none
    | some r1 => litMatch ci "numeral".toList r1

/-- `shown\s+as`. -/
def altShown (ci : Bool) (l : List Char) : Option (List Char) :=
  match litMatch ci "shown".toList l with
  | none => none
  | some r =>
    match spacesOne r with
    | none => none
    | some r1 => litMatch ci "as".toList r1

/-- The keyword alternation, alternatives in source order. -/
def matchKeyword (ci : Bool) (l : List Char) : Option (List Char) :=
  (altIndicated ci l).orElse fun _ =>
  (altIdentified ci l).orElse fun _ =>
  (litMatch ci "as".toList l).orElse fun _ =>
  (altNo ci l).orElse fun _ =>
  (altReference ci l).orElse fun _ =>
  altShown ci l

/-- `\d{1,4}` greedily: up to four leading digits and the rest. -/
def takeDigits4 (l : List Char) : List Char × List Char :=
  let ds := (l.takeWhile isDigitC).take 4
  (ds, l.drop ds.length)

/-- The greedy star `(?:,\s*\d{1,4})*`: returns the matched text and the
rest.  The fuel exceeds the input length, so it never runs out. -/
def g2Star : ℕ → List Char → List Char × List Char
  | 0, l => ([], l)
  | _ + 1, [] => ([], [])
  | fuel + 1, c :: r =>
    if c = ',' then
      let sp := r.takeWhile isSpaceC
      let r1 := r.dropWhile isSpaceC
      if (takeDigits4 r1).1.isEmpty then ([], c :: r)
      else
        ((',' :: sp) ++ (takeDigits4 r1).1 ++ (g2Star fuel (takeDigits4 r1).2).1,
          (g2Star fuel (takeDigits4 r1).2).2)
    else ([], c :: r)

/-- The numeral-list capture group `(\d{1,4}(?:,\s*\d{1,4})*)`: matched
text and rest. -/
def matchG2 (l : List Char) : Option (List Char × List Char) :=
  if (takeDigits4 l).1.isEmpty then none
  else
    some ((takeDigits4 l).1 ++ (g2Star l.length (takeDigits4 l).2).1,
      (g2Star l.length (takeDigits4 l).2).2)

/-- The lazy phrase group followed by `\s*` and the numeral group: try the
shortest phrase first, extending one character at a time.  Returns
(phrase, numeral list, rest). -/
def phraseGo (acc : List Char) : List Char → Option (List Char × List Char × List Char)
  | [] => none
  | c :: rest =>
    if isPhraseClass c then
      let acc' := acc ++ [c]
      match matchG2 (rest.dropWhile isSpaceC) with
      | some (g2, r) => some (acc', g2, r)
      | none => phraseGo acc' rest
    else none

/-- `([\w\s\-\.,;:\(\)]+?)\s*(\d{1,4}(?:,\s*\d{1,4})*)` at the current
position. -/
def matchPhraseNums (l : List Char) : Option (List Char × List Char × List Char) :=
  phraseGo [] l

/-- After the lead-in keyword, `\s+` backtracks from the maximal munch down
to one space before the lazy phrase group (which may itself start with
whitespace). -/
def phraseFromSpaces : ℕ → List Char → Option (List Char × List Char × List Char)
  | 0, _ => none
  | j + 1, l => (matchPhraseNums (l.drop (j + 1))).orElse fun _ => phraseFromSpaces j l

/-- The optional lead-in `[\w\s\-,;:\(\)]*?\s(?:keyword)\s+` followed by
the phrase and numerals: the lazy class run grows one character at a time,
at each length first trying a single `\s`, the keyword, `\s+` and the rest
of the pattern. -/
def preGo (ci : Bool) : List Char → Option (List Char × List Char × List Char)
  | [] => none
  | c :: rest =>
    match
      (if isSpaceC c then
        match matchKeyword ci rest with
        | some r =>
          let n := (r.takeWhile isSpaceC).length
          if n = 0 then none else phraseFromSpaces n r
        | none => none
      else none) with
    | some res => some res
    | none => if isPreClass c then preGo ci rest else none

/-- One match attempt at the current position: with the optional lead-in
group present (tried first, the group being greedy), then absent. -/
def matchAt (withPre ci : Bool) (l : List Char) : Option (List Char × List Char × List Char) :=
  if withPre then
    match preGo ci l with
    | some res => some res
    | none => matchPhraseNums l
  else matchPhraseNums l

/-- `re.finditer`: leftmost matches, scanning on from the end of each
match.  The fuel exceeds the text length and every step consumes at least
one character, so it never runs out. -/
def finditerGo (withPre ci : Bool) : ℕ → List Char → List (List Char × List Char)
  | 0, _ => []
  | fuel + 1, l =>
    match matchAt withPre ci l with
    | some (g1, g2, rest) => (g1, g2) :: finditerGo withPre ci fuel rest
    | none =>
      match l with
      | [] => []
      | _ :: t => finditerGo withPre ci fuel t

/-- All (phrase, numeral-list) capture pairs of the pattern over the
text. -/
def patternMatches (withPre ci : Bool) (text : List Char) : List (List Char × List Char) :=
  finditerGo withPre ci (text.length + 1) text

/-! ## The figure-reference filter

Both extractors drop a match whenever
`re.search(r'\bfigs?\.?\s*\d+\w*\b', phrase, re.IGNORECASE)` finds a figure
reference in the captured phrase.  The optional `s` and `.` are taken
greedily; skipping one only to meet the next element cannot succeed where
taking it failed, and the trailing `\w*\b` is always satisfiable once a
digit is found, so the search succeeds iff some position starts `fig`,
optional `s`, optional `.`, whitespace, then a digit, at a word boundary. -/

/-- Does `figs?\.?\s*\d` (case-insensitive) match at the head? -/
def figHere (l : List Char) : Bool :=
  match l.map Char.toLower with
  | 'f' :: 'i' :: 'g' :: r =>
    let r1 := match r with | 's' :: t => t | _ => r
    let r2 := match r1 with | '.' :: t => t | _ => r1
    match r2.dropWhile isSpaceC with
    | c :: _ => isDigitC c
    | [] => false
  | _ => false

/-- Scan for a figure reference, tracking the previous character for the
`\b` boundary. -/
def figSearchGo : Option Char → List Char → Bool
  | _, [] => false
  | prev, l@(c :: rest) =>
    ((match prev with
      | none => true
      | some p => !isWordC p) && figHere l) || figSearchGo (some c) rest

/-- `re.search(r'\bfigs?\.?\s*\d+\w*\b', phrase, re.IGNORECASE)` as a
Boolean. -/
def containsFigRef (phrase : List Char) : Bool :=
  figSearchGo none phrase

/-! ## Candidate tables and label choice

Python dicts preserve insertion order; they are modelled as association
lists with unique keys, new keys appended at the end and existing keys
updated in place. -/

/-- `candidate_labels.setdefault(num, []).append(label)`. -/
def candInsert (d : List (List Char × List (List Char))) (k : List Char) (lab : List Char) :
    List (List Char × List (List Char)) :=
  match d with
  | [] => [(k, [lab])]
  | (k', ls) :: rest =>
    if k' = k then (k', ls ++ [lab]) :: rest else (k', ls) :: candInsert rest k lab

/-- Dict lookup (`k in d` / `d[k]`). -/
def dictLookup {α : Type} (k : List Char) : List (List Char × α) → Option α
  | [] => none
  | (k', v) :: r => if k' = k then some v else dictLookup k r

/-- Dict assignment `d[k] = v`. -/
def dictInsert {α : Type} : List (List Char × α) → List Char → α → List (List Char × α)
  | [], k, v => [(k, v)]
  | (k', v') :: r, k, v =>
    if k' = k then (k, v) :: r else (k', v') :: dictInsert r k v

/-- `sorted(labels, key=len)[0]`: Python's sort is stable, so the sorted
head is the first-seen element of minimal length. -/
def leftmostShortest : List (List Char) → List Char
  | [] => []
  | [x] => x
  | x :: y :: r =>
    if x.length ≤ (leftmostShortest (y :: r)).length then x
    else leftmostShortest (y :: r)

/-! ## `extract_labels.py`: `TextAnalyzer.extract_number_descriptions_from_text`

`TextAnalyzer.normalize_phrase` reduces a phrase with the loaded spaCy
language model (noun-chunk selection, singularisation); its behaviour is
not derivable from the source alone, so it enters the embedding as an
explicit function parameter `normalize`.  All theorems below hold for every
such parameter. -/

/-- Inner loop of the extractor: `for num in nums.split(','): num =
num.strip(); if num.isdigit(): candidate_labels.setdefault(num,
[]).append(label)`. -/
def numFoldStep (label : List Char) (d2 : List (List Char × List (List Char)))
    (numRaw : List Char) : List (List Char × List (List Char)) :=
  if pyIsDigit (pyStrip numRaw) then candInsert d2 (pyStrip numRaw) label else d2

/-- Per-match body of `extract_number_descriptions_from_text`. -/
def matchFoldStep (normalize : List Char → List Char)
    (d : List (List Char × List (List Char))) (m : List Char × List Char) :
    List (List Char × List (List Char)) :=
  if containsFigRef m.1 then d
  else
    if (normalize (pyLower m.1)).isEmpty then d
    else (pySplitComma m.2).foldl (numFoldStep (normalize (pyLower m.1))) d

/-- The candidate table built by `extract_number_descriptions_from_text`
(`src/extract_labels.py` lines 84-101): for each match, skip phrases with a
figure reference, lower-case and normalize the phrase, drop empty labels,
and append the label under every comma-separated numeral token passing
`str.isdigit`. -/
def textAnalyzerCandidates (normalize : List Char → List Char) (text : List Char) :
    List (List Char × List (List Char)) :=
  (patternMatches true false text).foldl (matchFoldStep normalize) []

/-- `TextAnalyzer.extract_number_descriptions_from_text`
(`src/extract_labels.py` lines 82-109): the candidate table, then for every
numeral with a nonempty candidate list the first-seen shortest label. -/
def finalStep (f : List (List Char × List Char))
    (p : List Char × List (List Char)) : List (List Char × List Char) :=
  if p.2.isEmpty then f else dictInsert f p.1 (leftmostShortest p.2)

/-- The final loop of `extract_number_descriptions_from_text`
(`src/extract_labels.py` lines 104-109). -/
def extract_number_descriptions_from_text (normalize : List Char → List Char)
    (text : List Char) : List (List Char × List Char) :=
  (textAnalyzerCandidates normalize text).foldl finalStep []

/-! ## `output/labelss.py`: `extract_descriptions_from_text`

Here `normalize_phrase` is again spaCy-driven and enters as the parameter
`normalize`.  The selection step computes `sorted(list(set(labels)),
key=len)[0]`: `set` deduplicates the labels and its iteration order is
decided by string hashing (randomised per process), not by insertion order.
The conversion `list(set(·))` therefore enters as a parameter `setOrder`,
constrained only to enumerate the distinct elements (`IsSetListing`). -/

/-- What any Python `list(set(labels))` satisfies: no duplicates, same
membership. -/
def IsSetListing (d labels : List (List Char)) : Prop :=
  d.Nodup ∧ ∀ x, x ∈ d ↔ x ∈ labels

/-- `sorted(list(set(labels)), key=len)[0]` under the set order `setOrder`. -/
def pickUnique (setOrder : List (List Char) → List (List Char))
    (labels : List (List Char)) : List Char :=
  leftmostShortest (setOrder labels)

/-- Inner numeral loop of the labelss extractor: the token must pass
`num.isdigit() and len(num) <= 4`. -/
def numFoldStep4 (label : List Char) (d2 : List (List Char × List (List Char)))
    (numRaw : List Char) : List (List Char × List (List Char)) :=
  if pyIsDigit (pyStrip numRaw) && (pyStrip numRaw).length ≤ 4 then
    candInsert d2 (pyStrip numRaw) label
  else d2

/-- Per-match body of the labelss candidate loop; the phrase is normalized
without pre-lowering. -/
def matchFoldStepL (normalize : List Char → List Char)
    (d : List (List Char × List (List Char))) (m : List Char × List Char) :
    List (List Char × List (List Char)) :=
  if containsFigRef m.1 then d
  else
    if (normalize m.1).isEmpty then d
    else (pySplitComma m.2).foldl (numFoldStep4 (normalize m.1)) d

/-- The candidate table of `extract_descriptions_from_text`
(`src/output/labelss.py` lines 338-359): both patterns (first without the
lead-in group, then with it, both compiled with `re.IGNORECASE`) run over
the text and feed one shared table; numeral tokens must pass `str.isdigit`
and have length at most 4. -/
def labelssCandidates (normalize : List Char → List Char) (patent_text : List Char) :
    List (List Char × List (List Char)) :=
  (patternMatches false true patent_text ++ patternMatches true true patent_text).foldl
    (matchFoldStepL normalize) []

/-- Body of the first merge loop: `if num in candidate_labels:
final_labels[num] = sorted(list(set(candidate_labels[num])), key=len)[0]`. -/
def mergeStep1 (setOrder : List (List Char) → List (List Char))
    (candidate_labels : List (List Char × List (List Char)))
    (f : List (List Char × List Char)) (num : List Char) :
    List (List Char × List Char) :=
  match dictLookup num candidate_labels with
  | some labels => dictInsert f num (pickUnique setOrder labels)
  | none => f

/-- Body of the second merge loop: `if num not in final_labels and labels:
final_labels[num] = sorted(list(set(labels)), key=len)[0]`. -/
def mergeStep2 (setOrder : List (List Char) → List (List Char))
    (f : List (List Char × List Char)) (p : List Char × List (List Char)) :
    List (List Char × List Char) :=
  if (dictLookup p.1 f).isNone && !p.2.isEmpty then
    dictInsert f p.1 (pickUnique setOrder p.2)
  else f

/-- The merge of `extract_descriptions_from_text`
(`src/output/labelss.py` lines 361-378): first the OCR-detected numerals
with text candidates, then every remaining numeral of the candidate
table. -/
def extract_descriptions_from_text (normalize : List Char → List Char)
    (setOrder : List (List Char) → List (List Char))
    (patent_text : List Char) (detected_numbers : List (List Char)) :
    List (List Char × List Char) :=
  let candidate_labels := labelssCandidates normalize patent_text
  (labelssCandidates normalize patent_text).foldl (mergeStep2 setOrder)
    (detected_numbers.foldl (mergeStep1 setOrder candidate_labels) [])

/-! ## Basic lemmas -/

theorem pyReplaceChar_map (l : List Char) (a b : Char) (f : Char → Char) :
    pyReplaceChar (l.map f) a b = l.map fun c => if f c = a then b else f c := by
  simp [pyReplaceChar, List.map_map, Function.comp]

theorem foldl_replace_eq_map (ps : List (Char × Char)) :
    ∀ l : List Char,
      ps.foldl (fun acc p => pyReplaceChar acc p.1 p.2) l =
        l.map fun c => ps.foldl (fun x p => if x = p.1 then p.2 else x) c := by
  induction ps with
  | nil => intro l; simp
  | cons p ps ih =>
    intro l
    simp only [List.foldl_cons]
    rw [show pyReplaceChar l p.1 p.2 = l.map fun c => if c = p.1 then p.2 else c from rfl,
      ih, List.map_map]
    rfl

theorem glyph_fold_char (c : Char) :
    corrections.foldl (fun x p => if x = p.1 then p.2 else x) c = specGlyphDigit c := by
  by_cases h1 : c = 'b'; · subst h1; decide
  by_cases h2 : c = 'B'; · subst h2; decide
  by_cases h3 : c = 'o'; · subst h3; decide
  by_cases h4 : c = 'O'; · subst h4; decide
  by_cases h5 : c = 'l'; · subst h5; decide
  by_cases h6 : c = 'I'; · subst h6; decide
  by_cases h7 : c = 'S'; · subst h7; decide
  by_cases h8 : c = 's'; · subst h8; decide
  by_cases h9 : c = 'Z'; · subst h9; decide
  by_cases h10 : c = 'z'; · subst h10; decide
  by_cases h11 : c = 'g'; · subst h11; decide
  by_cases h12 : c = 'G'; · subst h12; decide
  by_cases h13 : c = 'q'; · subst h13; decide
  by_cases h14 : c = 'Q'; · subst h14; decide
  by_cases h15 : c = 'D'; · subst h15; decide
  by_cases h16 : c = 'i'; · subst h16; decide
  by_cases h17 : c = 'T'; · subst h17; decide
  by_cases h18 : c = 't'; · subst h18; decide
  simp [corrections, specGlyphDigit, List.find?, h1, h2, h3, h4, h5, h6, h7, h8, h9,
    h10, h11, h12, h13, h14, h15, h16, h17, h18,
    Ne.symm h1, Ne.symm h2, Ne.symm h3, Ne.symm h4, Ne.symm h5, Ne.symm h6,
    Ne.symm h7, Ne.symm h8, Ne.symm h9, Ne.symm h10, Ne.symm h11, Ne.symm h12,
    Ne.symm h13, Ne.symm h14, Ne.symm h15, Ne.symm h16, Ne.symm h17, Ne.symm h18]

/-! ## Unfolding equations for `filter_valid_numbers` -/

theorem filter_valid_nil : filter_valid_numbers [] = [] := rfl

theorem filter_valid_cons_some (bbox : List (ℚ × ℚ)) (t : List Char) (c : ℚ)
    (rest : List OcrLine) :
    filter_valid_numbers (⟨some bbox, some (t, c)⟩ :: rest) =
      if c < 6 / 10 then filter_valid_numbers rest
      else
        if (is_number (correct_common_ocr_errors t) &&
            decide ((correct_common_ocr_errors t).length > 0)) = true then
          match floatOfDigitDot (correct_common_ocr_errors t) with
          | some v =>
            ⟨bbox, t, correct_common_ocr_errors t, v, c⟩ :: filter_valid_numbers rest
          | none => filter_valid_numbers rest
        else filter_valid_numbers rest := rfl

theorem filter_valid_cons_nobbox (t? : Option (List Char × ℚ)) (rest : List OcrLine) :
    filter_valid_numbers (⟨none, t?⟩ :: rest) = filter_valid_numbers rest := by
  cases t? with
  | none => rfl
  | some tc => cases tc; rfl

theorem filter_valid_cons_notext (b? : Option (List (ℚ × ℚ))) (rest : List OcrLine) :
    filter_valid_numbers (⟨b?, none⟩ :: rest) = filter_valid_numbers rest := by
  cases b? <;> rfl

/-! ## C5 -/

theorem correct_fold_eq (text : List Char) :
    correct_common_ocr_errors text =
      (text.map fun c =>
        corrections.foldl (fun x p => if x = p.1 then p.2 else x) c).filter
        fun c => isDigitC c || c = '.' := by
  simp only [correct_common_ocr_errors]
  rw [foldl_replace_eq_map]

/-- C5: `correct(raw_text)` substitutes each visually confusable glyph per
the fixed table (b/B to 6, o/O to 0, l/I/i to 1, S/s to 5, Z/z to 2,
g/G/q/Q to 9, D to 0, T/t to 7) and then deletes every character that is
not a digit or a decimal point; in particular `correct("1OO") = "100"` and
`correct("b0") = "60"`.  The source's sequence of `str.replace` passes
agrees with the per-character substitution because no character produced by
the table is itself a table key. -/
theorem correct_glyph_table :
    (∀ text : List Char,
      correct_common_ocr_errors text =
        (text.map specGlyphDigit).filter fun c => isDigitC c || c = '.') ∧
    correct_common_ocr_errors "1OO".toList = "100".toList ∧
    correct_common_ocr_errors "b0".toList = "60".toList := by
  refine ⟨fun text => ?_, by decide, by decide⟩
  rw [correct_fold_eq]
  have hmap :
      (text.map fun c =>
        corrections.foldl (fun x p => if x = p.1 then p.2 else x) c) =
        text.map specGlyphDigit :=
    List.map_congr_left fun c _ => glyph_fold_char c
  rw [hmap]

/-! ## C3 -/

/-- The numeric-string predicate exactly as the claim words it: convertible
to a floating-point value, or at least 70% of the characters are digits. -/
def claimNumericPred (text : List Char) : Bool :=
  pyFloatAccepts text ||
    (!text.isEmpty && decide (7 * text.length ≤ 10 * (text.filter isDigitC).length))

/-- C3, counterexample: `is_number("1)")` returns true — the code first
strips the `)` and then accepts `"1"` as a float — although `"1)"` neither
converts to a float nor has 70% digits (1 of 2 characters), so the claimed
equivalence on the raw text is false at `"1)"`. -/
theorem is_number_claim_counterexample :
    is_number "1)".toList = true ∧ claimNumericPred "1)".toList = false := by
  constructor <;> decide

/-- C3, amended: `is_number(text)` first removes every character that is
not a word character or a period and returns true iff the cleaned string
converts to a floating-point value, or the cleaned string is nonempty and
at least 70% of its characters are digits. -/
theorem is_number_cleaned_equiv (text : List Char) :
    is_number text = claimNumericPred (cleanWordDot text) := by
  unfold is_number claimNumericPred
  by_cases h : pyFloatAccepts (cleanWordDot text)
  · simp [h]
  · simp only [h, Bool.false_or, if_false]
    by_cases he : (cleanWordDot text).length = 0
    · simp [he, List.isEmpty_iff_length_eq_zero, List.length_eq_zero.mp he]
    · have hne : cleanWordDot text ≠ [] := fun h0 => he (by rw [h0]; rfl)
      simp [he, List.isEmpty_iff_length_eq_zero, hne]

/-! ## C6 -/

/-- A detection line whose confidence 3/2 lies outside [0,1]. -/
def overconfidentLine : OcrLine :=
  ⟨some [(0, 0), (1, 0), (1, 1), (0, 1)], some ("100".toList, 3 / 2)⟩

/-- C6, counterexample: the filter checks only `confidence < 0.6`, so a
detection with confidence 3/2 — outside [0,1] — is not skipped: it survives
validation rather than being dropped. -/
theorem filter_valid_claim_counterexample :
    (1 : ℚ) < 3 / 2 ∧ filter_valid_numbers [overconfidentLine] ≠ [] := by
  refine ⟨by norm_num, ?_⟩
  show filter_valid_numbers (⟨some [(0, 0), (1, 0), (1, 1), (0, 1)],
    some ("100".toList, 3 / 2)⟩ :: []) ≠ []
  rw [filter_valid_cons_some, if_neg (by norm_num), if_pos (by decide)]
  obtain ⟨v, hv⟩ : ∃ v, floatOfDigitDot (correct_common_ocr_errors "100".toList) = some v :=
    ⟨_, rfl⟩
  rw [hv]
  simp

/-- C6, amended: the validation filter processes each detection of the
batch independently — an offending detection is skipped and the remaining
detections are still processed — and it skips a detection that lacks the
bbox or text field, or whose confidence is below the 0.6 threshold.  (A
confidence above 1 is not rejected, see the counterexample.) -/
theorem filter_valid_skips_and_continues :
    (∀ l1 l2 : List OcrLine,
      filter_valid_numbers (l1 ++ l2) =
        filter_valid_numbers l1 ++ filter_valid_numbers l2) ∧
    (∀ line : OcrLine, line.bbox = none ∨ line.text = none →
      filter_valid_numbers [line] = []) ∧
    (∀ (line : OcrLine) (t : List Char) (c : ℚ), line.text = some (t, c) → c < 6 / 10 →
      filter_valid_numbers [line] = []) := by
  refine ⟨fun l1 l2 => ?_, fun line h => ?_, fun line t c ht hc => ?_⟩
  · induction l1 with
    | nil => rfl
    | cons line rest ih =>
      rcases line with ⟨b?, t?⟩
      rcases b? with _ | bbox
      · rw [List.cons_append, filter_valid_cons_nobbox, filter_valid_cons_nobbox, ih]
      · rcases t? with _ | ⟨t, c⟩
        · rw [List.cons_append, filter_valid_cons_notext, filter_valid_cons_notext, ih]
        · rw [List.cons_append, filter_valid_cons_some, filter_valid_cons_some]
          by_cases h1 : c < 6 / 10
          · rw [if_pos h1, if_pos h1, ih]
          · rw [if_neg h1, if_neg h1]
            by_cases h2 : (is_number (correct_common_ocr_errors t) &&
                decide ((correct_common_ocr_errors t).length > 0)) = true
            · rw [if_pos h2, if_pos h2]
              cases floatOfDigitDot (correct_common_ocr_errors t) with
              | some v => rw [ih]; rfl
              | none => exact ih
            · rw [if_neg h2, if_neg h2, ih]
  · rcases line with ⟨b?, t?⟩
    replace h : b? = none ∨ t? = none := h
    rcases h with h | h
    · subst h; exact filter_valid_cons_nobbox t? []
    · subst h; exact filter_valid_cons_notext b? []
  · rcases line with ⟨b?, t?⟩
    replace ht : t? = some (t, c) := ht
    subst ht
    rcases b? with _ | bbox
    · exact filter_valid_cons_nobbox _ []
    · rw [show ([(⟨some bbox, some (t, c)⟩ : OcrLine)]) =
        (⟨some bbox, some (t, c)⟩ : OcrLine) :: [] from rfl,
        filter_valid_cons_some, if_pos hc]
      rfl

/-! ## Geometry lemmas for the deduplicator -/

theorem foldl_min_le (f : ℚ × ℚ → ℚ) (ps : List (ℚ × ℚ)) :
    ∀ x : ℚ, ps.foldl (fun m q => min m (f q)) x ≤ x := by
  induction ps with
  | nil => intro x; simp
  | cons p ps ih =>
    intro x
    calc (p :: ps).foldl (fun m q => min m (f q)) x
        = ps.foldl (fun m q => min m (f q)) (min x (f p)) := rfl
      _ ≤ min x (f p) := ih _
      _ ≤ x := min_le_left _ _

theorem le_foldl_max (f : ℚ × ℚ → ℚ) (ps : List (ℚ × ℚ)) :
    ∀ x : ℚ, x ≤ ps.foldl (fun m q => max m (f q)) x := by
  induction ps with
  | nil => intro x; simp
  | cons p ps ih =>
    intro x
    calc x ≤ max x (f p) := le_max_left _ _
      _ ≤ ps.foldl (fun m q => max m (f q)) (max x (f p)) := ih _
      _ = (p :: ps).foldl (fun m q => max m (f q)) x := rfl

theorem bbox_coords_wf (b : List (ℚ × ℚ)) (hb : b ≠ []) :
    (bbox_to_coords b).xmin ≤ (bbox_to_coords b).xmax ∧
      (bbox_to_coords b).ymin ≤ (bbox_to_coords b).ymax := by
  match b with
  | p :: ps =>
    exact ⟨le_trans (foldl_min_le Prod.fst ps p.1) (le_foldl_max Prod.fst ps p.1),
      le_trans (foldl_min_le Prod.snd ps p.2) (le_foldl_max Prod.snd ps p.2)⟩

theorem interWindow_comm (r1 r2 : Rect) : interWindow r1 r2 = interWindow r2 r1 := by
  simp [interWindow, max_comm, min_comm]

theorem rectIoU_comm (r1 r2 : Rect) : rectIoU r1 r2 = rectIoU r2 r1 := by
  unfold rectIoU
  rw [interWindow_comm, add_comm (rectArea r1) (rectArea r2)]

theorem calculate_overlap_comm (b1 b2 : List (ℚ × ℚ)) :
    calculate_overlap b1 b2 = calculate_overlap b2 b1 :=
  rectIoU_comm _ _

theorem rectIoU_bounds (r1 r2 : Rect)
    (hx1 : r1.xmin ≤ r1.xmax) (hy1 : r1.ymin ≤ r1.ymax)
    (hx2 : r2.xmin ≤ r2.xmax) (hy2 : r2.ymin ≤ r2.ymax) :
    0 ≤ rectIoU r1 r2 ∧ rectIoU r1 r2 ≤ 1 := by
  unfold rectIoU
  by_cases hdeg : (interWindow r1 r2).xmax ≤ (interWindow r1 r2).xmin ∨
      (interWindow r1 r2).ymax ≤ (interWindow r1 r2).ymin
  · rw [if_pos hdeg]; norm_num
  · rw [if_neg hdeg]
    push_neg at hdeg
    obtain ⟨hx, hy⟩ := hdeg
    simp only [interWindow] at hx hy ⊢
    have hxa : max r1.xmin r2.xmin < min r1.xmax r2.xmax := hx
    have hya : max r1.ymin r2.ymin < min r1.ymax r2.ymax := hy
    have hinter : 0 < (min r1.xmax r2.xmax - max r1.xmin r2.xmin) *
        (min r1.ymax r2.ymax - max r1.ymin r2.ymin) :=
      mul_pos (by linarith) (by linarith)
    have ha1 : (min r1.xmax r2.xmax - max r1.xmin r2.xmin) *
        (min r1.ymax r2.ymax - max r1.ymin r2.ymin) ≤ rectArea r1 := by
      unfold rectArea
      apply mul_le_mul
      · have h1 := min_le_left r1.xmax r2.xmax
        have h2 := le_max_left r1.xmin r2.xmin
        linarith
      · have h1 := min_le_left r1.ymax r2.ymax
        have h2 := le_max_left r1.ymin r2.ymin
        linarith
      · linarith
      · linarith
    have ha2 : (min r1.xmax r2.xmax - max r1.xmin r2.xmin) *
        (min r1.ymax r2.ymax - max r1.ymin r2.ymin) ≤ rectArea r2 := by
      unfold rectArea
      apply mul_le_mul
      · have h1 := min_le_right r1.xmax r2.xmax
        have h2 := le_max_right r1.xmin r2.xmin
        linarith
      · have h1 := min_le_right r1.ymax r2.ymax
        have h2 := le_max_right r1.ymin r2.ymin
        linarith
      · linarith
      · linarith
    by_cases hu : 0 < rectArea r1 + rectArea r2 -
        (min r1.xmax r2.xmax - max r1.xmin r2.xmin) *
          (min r1.ymax r2.ymax - max r1.ymin r2.ymin)
    · rw [if_pos hu]
      constructor
      · exact div_nonneg (le_of_lt hinter) (le_of_lt hu)
      · rw [div_le_one hu]
        linarith
    · rw [if_neg hu]; norm_num

theorem rectIoU_degenerate (r1 r2 : Rect)
    (h : (interWindow r1 r2).xmax ≤ (interWindow r1 r2).xmin ∨
      (interWindow r1 r2).ymax ≤ (interWindow r1 r2).ymin) :
    rectIoU r1 r2 = 0 := by
  unfold rectIoU
  rw [if_pos h]

theorem rectIoU_union_nonpos (r1 r2 : Rect)
    (h : rectArea r1 + rectArea r2 -
      ((interWindow r1 r2).xmax - (interWindow r1 r2).xmin) *
        ((interWindow r1 r2).ymax - (interWindow r1 r2).ymin) ≤ 0) :
    rectIoU r1 r2 = 0 := by
  unfold rectIoU
  by_cases hdeg : (interWindow r1 r2).xmax ≤ (interWindow r1 r2).xmin ∨
      (interWindow r1 r2).ymax ≤ (interWindow r1 r2).ymin
  · rw [if_pos hdeg]
  · rw [if_neg hdeg, if_neg (not_lt.mpr h)]

/-! ## C9 -/

/-- C9: on 4-point boxes `calculate_overlap` is total and returns a value
in [0,1]; it returns 0 when the derived axis-aligned rectangles do not
properly intersect (degenerate intersection window) and when their union
area is not positive, so no division by zero can occur. -/
theorem calculate_overlap_total (b1 b2 : List (ℚ × ℚ))
    (h1 : b1.length = 4) (h2 : b2.length = 4) :
    (0 ≤ calculate_overlap b1 b2 ∧ calculate_overlap b1 b2 ≤ 1) ∧
    ((interWindow (bbox_to_coords b1) (bbox_to_coords b2)).xmax ≤
        (interWindow (bbox_to_coords b1) (bbox_to_coords b2)).xmin ∨
      (interWindow (bbox_to_coords b1) (bbox_to_coords b2)).ymax ≤
        (interWindow (bbox_to_coords b1) (bbox_to_coords b2)).ymin →
      calculate_overlap b1 b2 = 0) ∧
    (rectArea (bbox_to_coords b1) + rectArea (bbox_to_coords b2) -
        ((interWindow (bbox_to_coords b1) (bbox_to_coords b2)).xmax -
          (interWindow (bbox_to_coords b1) (bbox_to_coords b2)).xmin) *
        ((interWindow (bbox_to_coords b1) (bbox_to_coords b2)).ymax -
          (interWindow (bbox_to_coords b1) (bbox_to_coords b2)).ymin) ≤ 0 →
      calculate_overlap b1 b2 = 0) := by
  have hb1 : b1 ≠ [] := by intro h; rw [h] at h1; exact absurd h1 (by decide)
  have hb2 : b2 ≠ [] := by intro h; rw [h] at h2; exact absurd h2 (by decide)
  obtain ⟨hx1, hy1⟩ := bbox_coords_wf b1 hb1
  obtain ⟨hx2, hy2⟩ := bbox_coords_wf b2 hb2
  exact ⟨rectIoU_bounds _ _ hx1 hy1 hx2 hy2,
    rectIoU_degenerate _ _, rectIoU_union_nonpos _ _⟩

/-- C9 witness: two concrete overlapping unit boxes. -/
theorem calculate_overlap_total_witness :
    0 ≤ calculate_overlap [(0, 0), (2, 0), (2, 2), (0, 2)] [(1, 1), (3, 1), (3, 3), (1, 3)] ∧
      calculate_overlap [(0, 0), (2, 0), (2, 2), (0, 2)] [(1, 1), (3, 1), (3, 3), (1, 3)] ≤ 1 :=
  (calculate_overlap_total [(0, 0), (2, 0), (2, 2), (0, 2)] [(1, 1), (3, 1), (3, 3), (1, 3)]
    rfl rfl).1

/-! ## Sorting lemmas for the deduplicator -/

theorem insertByConfDesc_perm (x : ValidNumber) (l : List ValidNumber) :
    List.Perm (insertByConfDesc x l) (x :: l) := by
  induction l with
  | nil => exact List.Perm.refl _
  | cons y r ih =>
    unfold insertByConfDesc
    by_cases h : y.confidence ≤ x.confidence
    · rw [if_pos h]
    · rw [if_neg h]
      exact (ih.cons y).trans (List.Perm.swap x y r)

theorem sortByConfDesc_perm (l : List ValidNumber) : List.Perm (sortByConfDesc l) l := by
  induction l with
  | nil => exact List.Perm.refl _
  | cons x xs ih =>
    exact (insertByConfDesc_perm x (sortByConfDesc xs)).trans (ih.cons x)

theorem insertByConfDesc_sorted (x : ValidNumber) (l : List ValidNumber)
    (h : l.Sorted fun a b => b.confidence ≤ a.confidence) :
    (insertByConfDesc x l).Sorted fun a b => b.confidence ≤ a.confidence := by
  induction l with
  | nil => simp [insertByConfDesc]
  | cons y r ih =>
    rw [List.sorted_cons] at h
    obtain ⟨hy, hr⟩ := h
    unfold insertByConfDesc
    by_cases hc : y.confidence ≤ x.confidence
    · rw [if_pos hc, List.sorted_cons]
      refine ⟨fun b hb => ?_, List.sorted_cons.mpr ⟨hy, hr⟩⟩
      rcases List.mem_cons.mp hb with rfl | hb'
      · exact hc
      · exact le_trans (hy b hb') hc
    · rw [if_neg hc, List.sorted_cons]
      refine ⟨fun b hb => ?_, ih hr⟩
      have hmem : b ∈ x :: r := (insertByConfDesc_perm x r).subset hb
      rcases List.mem_cons.mp hmem with rfl | hmem'
      · exact le_of_lt (lt_of_not_le hc)
      · exact hy b hmem'

theorem sortByConfDesc_sorted (l : List ValidNumber) :
    (sortByConfDesc l).Sorted fun a b => b.confidence ≤ a.confidence := by
  induction l with
  | nil => simp [sortByConfDesc]
  | cons x xs ih => exact insertByConfDesc_sorted x _ ih

theorem dedupAccept_nil (thr : ℚ) (acc : List ValidNumber) : dedupAccept thr acc [] = acc := rfl

theorem dedupAccept_cons (thr : ℚ) (acc : List ValidNumber) (n : ValidNumber)
    (rest : List ValidNumber) :
    dedupAccept thr acc (n :: rest) =
      if acc.any (fun num2 => thr < calculate_overlap n.bbox num2.bbox) then
        dedupAccept thr acc rest
      else dedupAccept thr (acc ++ [n]) rest := by
  conv_lhs => rw [dedupAccept]

/-! ## C4 -/

/-- C4: deduplication stably sorts the detections in descending confidence
order (the sorted list is a permutation of the input, descending in
confidence) and greedily accepts a detection only when its IoU with every
already accepted detection does not exceed the threshold; in particular
for two detections whose boxes overlap above the threshold, only the
higher-confidence one — or, on equal confidence, the first of the input —
survives. -/
theorem dedup_sorts_and_keeps_best :
    (∀ l : List ValidNumber,
      List.Perm (sortByConfDesc l) l ∧
        (sortByConfDesc l).Sorted fun a b => b.confidence ≤ a.confidence) ∧
    (∀ (d1 d2 : ValidNumber) (thr : ℚ), thr < calculate_overlap d1.bbox d2.bbox →
      remove_duplicate_detections [d1, d2] thr =
        if d2.confidence ≤ d1.confidence then [d1] else [d2]) := by
  refine ⟨fun l => ⟨sortByConfDesc_perm l, sortByConfDesc_sorted l⟩,
    fun d1 d2 thr h => ?_⟩
  have hsym : thr < calculate_overlap d2.bbox d1.bbox := by
    rw [calculate_overlap_comm]; exact h
  show dedupAccept thr [] (sortByConfDesc [d1, d2]) = _
  have hsort : sortByConfDesc [d1, d2] = insertByConfDesc d1 [d2] := rfl
  rw [hsort]
  unfold insertByConfDesc
  by_cases hc : d2.confidence ≤ d1.confidence
  · rw [if_pos hc, if_pos hc]
    show dedupAccept thr [] [d1, d2] = [d1]
    rw [dedupAccept_cons, if_neg (by simp), List.nil_append, dedupAccept_cons,
      if_pos (by simp [hsym]), dedupAccept_nil]
  · rw [if_neg hc, if_neg hc]
    show dedupAccept thr [] [d2, d1] = [d2]
    rw [dedupAccept_cons, if_neg (by simp), List.nil_append, dedupAccept_cons,
      if_pos (by simp [h]), dedupAccept_nil]

/-- C4 witness data: two identical boxes read as "100" and "1OO". -/
def detA : ValidNumber :=
  ⟨[(0, 0), (2, 0), (2, 2), (0, 2)], "100".toList, "100".toList, 100, 9 / 10⟩

/-- Lower-confidence duplicate of `detA`. -/
def detB : ValidNumber :=
  ⟨[(0, 0), (2, 0), (2, 2), (0, 2)], "1OO".toList, "100".toList, 100, 8 / 10⟩

/-- C4 witness: on two fully overlapping detections with confidences 0.9
and 0.8 only the higher-confidence one survives at threshold 0.5. -/
theorem dedup_sorts_and_keeps_best_witness :
    remove_duplicate_detections [detA, detB] (1 / 2) = [detA] := by
  have hov : (1 : ℚ) / 2 < calculate_overlap detA.bbox detB.bbox := by
    show (1 : ℚ) / 2 < rectIoU (bbox_to_coords [(0, 0), (2, 0), (2, 2), (0, 2)])
      (bbox_to_coords [(0, 0), (2, 0), (2, 2), (0, 2)])
    norm_num [rectIoU, bbox_to_coords, interWindow, rectArea, min_def, max_def]
  rw [dedup_sorts_and_keeps_best.2 detA detB (1 / 2) hov,
    if_pos (show detB.confidence ≤ detA.confidence by norm_num [detA, detB])]

/-! ## C10 -/

/-- Overlap bounded by the threshold, in both argument orders. -/
def overlapLe (thr : ℚ) (a b : ValidNumber) : Prop :=
  calculate_overlap a.bbox b.bbox ≤ thr ∧ calculate_overlap b.bbox a.bbox ≤ thr

theorem dedupAccept_good (thr : ℚ) (P : ValidNumber → Prop) :
    ∀ rest acc : List ValidNumber,
      (∀ d ∈ acc, P d) → (∀ d ∈ rest, P d) → acc.Pairwise (overlapLe thr) →
      (∀ d ∈ dedupAccept thr acc rest, P d) ∧
        (dedupAccept thr acc rest).Pairwise (overlapLe thr) := by
  intro rest
  induction rest with
  | nil => intro acc ha _ hp; rw [dedupAccept_nil]; exact ⟨ha, hp⟩
  | cons n rest ih =>
    intro acc ha hr hp
    rw [dedupAccept_cons]
    by_cases hc : (acc.any fun num2 => thr < calculate_overlap n.bbox num2.bbox) = true
    · rw [if_pos hc]
      exact ih acc ha (fun d hd => hr d (List.mem_cons_of_mem n hd)) hp
    · rw [if_neg hc]
      apply ih
      · intro d hd
        rcases List.mem_append.mp hd with hd | hd
        · exact ha d hd
        · rw [List.mem_singleton.mp hd]; exact hr n (List.mem_cons_self n rest)
      · exact fun d hd => hr d (List.mem_cons_of_mem n hd)
      · rw [List.pairwise_append]
        refine ⟨hp, List.pairwise_singleton _ _, fun a hha b hb => ?_⟩
        rw [List.mem_singleton.mp hb]
        have hno : ¬thr < calculate_overlap n.bbox a.bbox := by
          intro hlt
          exact hc (List.any_eq_true.mpr ⟨a, hha, decide_eq_true hlt⟩)
        exact ⟨by rw [calculate_overlap_comm]; exact not_lt.mp hno, not_lt.mp hno⟩

/-- C10: the deduplication output is a sub-collection of the input, and
every two retained detections have bounding-box IoU at most the overlap
threshold (in both argument orders). -/
theorem dedup_output_invariant (l : List ValidNumber) (thr : ℚ) :
    (∀ d ∈ remove_duplicate_detections l thr, d ∈ l) ∧
      (remove_duplicate_detections l thr).Pairwise (overlapLe thr) := by
  have hmem : ∀ d ∈ sortByConfDesc l, d ∈ l :=
    fun d hd => (sortByConfDesc_perm l).subset hd
  have h := dedupAccept_good thr (· ∈ l) (sortByConfDesc l) []
    (by intro d hd; cases hd) hmem List.Pairwise.nil
  exact h

/-- C10 witness: the invariant applied to a concrete one-detection list. -/
theorem dedup_output_invariant_witness : detA ∈ [detA] := by
  refine (dedup_output_invariant [detA] (1 / 2)).1 detA ?_
  show detA ∈ dedupAccept (1 / 2) [] (sortByConfDesc [detA])
  rw [show sortByConfDesc [detA] = [detA] from rfl, dedupAccept_cons,
    if_neg (by simp), List.nil_append, dedupAccept_nil]
  exact List.mem_singleton.mpr rfl

/-! ## Lemmas on label choice and dictionaries -/

theorem leftmostShortest_cons2 (x y : List Char) (r : List (List Char)) :
    leftmostShortest (x :: y :: r) =
      if x.length ≤ (leftmostShortest (y :: r)).length then x
      else leftmostShortest (y :: r) := rfl

/-- `leftmostShortest` picks the first-seen element of minimal length:
everything before it is strictly longer, nothing is shorter. -/
theorem leftmostShortest_spec (l : List (List Char)) (h : l ≠ []) :
    ∃ pre post, l = pre ++ leftmostShortest l :: post ∧
      (∀ x ∈ pre, (leftmostShortest l).length < x.length) ∧
      ∀ x ∈ l, (leftmostShortest l).length ≤ x.length := by
  induction l with
  | nil => exact absurd rfl h
  | cons a xs ih =>
    cases xs with
    | nil =>
      refine ⟨[], [], rfl, by simp, ?_⟩
      intro x hx
      rw [List.mem_singleton.mp hx]
      exact le_refl _
    | cons y r =>
      obtain ⟨pre, post, hsplit, hpre, hmin⟩ := ih (by simp)
      by_cases hc : a.length ≤ (leftmostShortest (y :: r)).length
      · rw [leftmostShortest_cons2, if_pos hc]
        refine ⟨[], y :: r, rfl, by simp, ?_⟩
        intro x hx
        rcases List.mem_cons.mp hx with rfl | hx'
        · exact le_refl _
        · exact le_trans hc (hmin x hx')
      · rw [leftmostShortest_cons2, if_neg hc]
        refine ⟨a :: pre, post, ?_, ?_, ?_⟩
        · rw [List.cons_append, ← hsplit]
        · intro x hx
          rcases List.mem_cons.mp hx with rfl | hx'
          · exact lt_of_not_le hc
          · exact hpre x hx'
        · intro x hx
          rcases List.mem_cons.mp hx with rfl | hx'
          · exact le_of_lt (lt_of_not_le hc)
          · exact hmin x hx'

theorem leftmostShortest_mem (l : List (List Char)) (h : l ≠ []) :
    leftmostShortest l ∈ l := by
  obtain ⟨pre, post, hsplit, -, -⟩ := leftmostShortest_spec l h
  have hm : leftmostShortest l ∈ pre ++ leftmostShortest l :: post :=
    List.mem_append_right pre (List.mem_cons_self _ _)
  rwa [← hsplit] at hm

theorem leftmostShortest_min (l : List (List Char)) (h : l ≠ []) :
    ∀ x ∈ l, (leftmostShortest l).length ≤ x.length := by
  obtain ⟨-, -, -, -, hmin⟩ := leftmostShortest_spec l h
  exact hmin

/-- When the minimum length is attained by a single element, any valid
choice returns it. -/
theorem leftmostShortest_unique (l : List (List Char)) (x : List Char)
    (hx : x ∈ l) (huniq : ∀ y ∈ l, y = x ∨ x.length < y.length) :
    leftmostShortest l = x := by
  have hne : l ≠ [] := fun h0 => by rw [h0] at hx; cases hx
  rcases huniq _ (leftmostShortest_mem l hne) with h | h
  · exact h
  · exact absurd (leftmostShortest_min l hne x hx) (not_le.mpr h)

/-- The first-seen-shortest element of a candidate list, as the claims
describe the tie-break: a minimal-length element preceded only by strictly
longer ones. -/
def FirstSeenShortest (lab : List Char) (labs : List (List Char)) : Prop :=
  ∃ pre post, labs = pre ++ lab :: post ∧
    (∀ x ∈ pre, lab.length < x.length) ∧
    ∀ x ∈ labs, lab.length ≤ x.length

theorem leftmostShortest_firstSeen (l : List (List Char)) (h : l ≠ []) :
    FirstSeenShortest (leftmostShortest l) l :=
  leftmostShortest_spec l h

theorem dictLookup_insert {α : Type} (d : List (List Char × α)) (k k' : List Char) (v : α) :
    dictLookup k (dictInsert d k' v) = if k' = k then some v else dictLookup k d := by
  induction d with
  | nil => simp only [dictInsert, dictLookup]
  | cons p r ih =>
    obtain ⟨kp, vp⟩ := p
    simp only [dictInsert]
    by_cases h1 : kp = k'
    · subst h1
      rw [if_pos rfl]
      simp only [dictLookup]
      by_cases h2 : kp = k
      · rw [if_pos h2, if_pos h2]
      · rw [if_neg h2, if_neg h2, if_neg h2]
    · rw [if_neg h1]
      simp only [dictLookup]
      rw [ih]
      by_cases h2 : kp = k <;> by_cases h3 : k' = k
      · exact absurd (h2.trans h3.symm) h1
      · simp [h2, h3]
      · simp [h2, h3]
      · simp [h2, h3]

theorem dictLookup_some_mem {α : Type} (d : List (List Char × α)) (k : List Char) (v : α)
    (h : dictLookup k d = some v) : (k, v) ∈ d := by
  induction d with
  | nil => cases h
  | cons p r ih =>
    obtain ⟨kp, vp⟩ := p
    unfold dictLookup at h
    by_cases h1 : kp = k
    · rw [if_pos h1] at h
      subst h1
      rw [Option.some_inj.mp h]
      exact List.mem_cons_self _ _
    · rw [if_neg h1] at h
      exact List.mem_cons_of_mem _ (ih h)

theorem mem_dictLookup_of_nodup {α : Type} (d : List (List Char × α)) (k : List Char) (v : α)
    (hnd : (d.map Prod.fst).Nodup) (hm : (k, v) ∈ d) : dictLookup k d = some v := by
  induction d with
  | nil => cases hm
  | cons p r ih =>
    obtain ⟨kp, vp⟩ := p
    rcases List.mem_cons.mp hm with heq | hm'
    · obtain ⟨h1, h2⟩ := Prod.mk.injEq .. ▸ heq
      unfold dictLookup
      rw [if_pos h1.symm, h2]
    · have hk : k ∈ r.map Prod.fst := List.mem_map.mpr ⟨(k, v), hm', rfl⟩
      have hkp : kp ∉ r.map Prod.fst := by
        rw [List.map_cons, List.nodup_cons] at hnd
        exact hnd.1
      unfold dictLookup
      rw [if_neg fun hh : kp = k => hkp (hh.symm ▸ hk)]
      apply ih
      · rw [List.map_cons, List.nodup_cons] at hnd
        exact hnd.2
      · exact hm'

theorem dictInsert_entry_cases {α : Type} (d : List (List Char × α)) (k : List Char) (v : α) :
    ∀ p ∈ dictInsert d k v, p = (k, v) ∨ p ∈ d := by
  induction d with
  | nil =>
    intro p hp
    exact Or.inl (List.mem_singleton.mp hp)
  | cons q r ih =>
    obtain ⟨kq, vq⟩ := q
    intro p hp
    unfold dictInsert at hp
    by_cases h1 : kq = k
    · rw [if_pos h1] at hp
      rcases List.mem_cons.mp hp with rfl | hp'
      · exact Or.inl rfl
      · exact Or.inr (List.mem_cons_of_mem _ hp')
    · rw [if_neg h1] at hp
      rcases List.mem_cons.mp hp with rfl | hp'
      · exact Or.inr (List.mem_cons_self _ _)
      · rcases ih p hp' with h | h
        · exact Or.inl h
        · exact Or.inr (List.mem_cons_of_mem _ h)

theorem candInsert_entry_cases (d : List (List Char × List (List Char)))
    (k lab : List Char) :
    ∀ p ∈ candInsert d k lab, p ∈ d ∨ (p.1 = k ∧ p.2 ≠ []) := by
  induction d with
  | nil =>
    intro p hp
    rw [List.mem_singleton.mp hp]
    exact Or.inr ⟨rfl, by simp⟩
  | cons q r ih =>
    obtain ⟨kq, lq⟩ := q
    intro p hp
    unfold candInsert at hp
    by_cases h1 : kq = k
    · rw [if_pos h1] at hp
      rcases List.mem_cons.mp hp with rfl | hp'
      · exact Or.inr ⟨h1, by simp⟩
      · exact Or.inl (List.mem_cons_of_mem _ hp')
    · rw [if_neg h1] at hp
      rcases List.mem_cons.mp hp with rfl | hp'
      · exact Or.inl (List.mem_cons_self _ _)
      · rcases ih p hp' with h | h
        · exact Or.inl (List.mem_cons_of_mem _ h)
        · exact Or.inr h

theorem candInsert_keys (d : List (List Char × List (List Char))) (k lab : List Char) :
    (candInsert d k lab).map Prod.fst =
      if k ∈ d.map Prod.fst then d.map Prod.fst else d.map Prod.fst ++ [k] := by
  induction d with
  | nil => simp [candInsert]
  | cons q r ih =>
    obtain ⟨kq, lq⟩ := q
    unfold candInsert
    by_cases h1 : kq = k
    · subst h1
      rw [if_pos rfl]
      simp [List.mem_cons]
    · rw [if_neg h1]
      by_cases h2 : k ∈ r.map Prod.fst
      · simp [ih, h1, h2, Ne.symm h1]
      · simp [ih, h1, h2, Ne.symm h1]

theorem candInsert_keys_nodup (d : List (List Char × List (List Char))) (k lab : List Char)
    (h : (d.map Prod.fst).Nodup) : ((candInsert d k lab).map Prod.fst).Nodup := by
  rw [candInsert_keys]
  by_cases h2 : k ∈ d.map Prod.fst
  · rw [if_pos h2]; exact h
  · rw [if_neg h2]
    rw [List.nodup_append]
    exact ⟨h, List.nodup_singleton _, fun a ha hb => h2 (List.mem_singleton.mp hb ▸ ha)⟩

/-- Any enumeration of a Python set of the labels is nonempty when the
labels are, and `pickUnique` then chooses a minimal-length label. -/
theorem pickUnique_spec (setOrder : List (List Char) → List (List Char))
    (labs : List (List Char)) (hso : IsSetListing (setOrder labs) labs) (hne : labs ≠ []) :
    pickUnique setOrder labs ∈ labs ∧
      ∀ x ∈ labs, (pickUnique setOrder labs).length ≤ x.length := by
  have hne' : setOrder labs ≠ [] := by
    obtain ⟨x, hx⟩ := List.exists_mem_of_ne_nil labs hne
    intro h0
    have hx' := (hso.2 x).mpr hx
    rw [h0] at hx'
    cases hx'
  refine ⟨(hso.2 _).mp (leftmostShortest_mem _ hne'), fun x hx => ?_⟩
  exact leftmostShortest_min _ hne' x ((hso.2 x).mpr hx)

/-! ## Shape of the numeral capture group

The second capture group always matches `\d{1,4}(?:,\s*\d{1,4})*`; after
the source splits it on commas and strips each piece, every surviving
token is a string of one to four digits.  This section proves that shape
invariant of the matcher. -/

/-- Shape of the text matched by the star `(?:,\s*\d{1,4})*`. -/
inductive StarOut : List Char → Prop
  | nil : StarOut []
  | cons (sp ds rest : List Char) :
      (∀ c ∈ sp, isSpaceC c = true) → (∀ c ∈ ds, isDigitC c = true) →
      ds ≠ [] → ds.length ≤ 4 → StarOut rest →
      StarOut ((',' :: sp) ++ ds ++ rest)

theorem takeDigits4_digits (l : List Char) :
    ∀ c ∈ (takeDigits4 l).1, isDigitC c = true := by
  intro c hc
  unfold takeDigits4 at hc
  exact List.mem_takeWhile_imp (List.mem_of_mem_take hc)

theorem takeDigits4_len (l : List Char) : (takeDigits4 l).1.length ≤ 4 := by
  unfold takeDigits4
  exact le_trans (List.length_take_le 4 _) (le_refl _)

theorem g2Star_starOut : ∀ (fuel : ℕ) (l : List Char), StarOut (g2Star fuel l).1 := by
  intro fuel
  induction fuel with
  | zero => intro l; exact StarOut.nil
  | succ fuel ih =>
    intro l
    rcases l with _ | ⟨c, r⟩
    · exact StarOut.nil
    · show StarOut (g2Star (fuel + 1) (c :: r)).1
      unfold g2Star
      by_cases hc : c = ','
      · rw [if_pos hc]
        by_cases hd : (takeDigits4 (r.dropWhile isSpaceC)).1.isEmpty
        · rw [if_pos hd]
          exact StarOut.nil
        · rw [if_neg hd]
          subst hc
          exact StarOut.cons _ _ _
            (fun c hc => List.mem_takeWhile_imp hc)
            (takeDigits4_digits _) (by simpa using hd) (takeDigits4_len _) (ih _)
      · rw [if_neg hc]
        exact StarOut.nil

/-- Shape of a successful numeral-group match. -/
def G2Shape (g2 : List Char) : Prop :=
  ∃ ds more, g2 = ds ++ more ∧ (∀ c ∈ ds, isDigitC c = true) ∧
    ds ≠ [] ∧ ds.length ≤ 4 ∧ StarOut more

theorem matchG2_shape (l g2 r : List Char) (h : matchG2 l = some (g2, r)) : G2Shape g2 := by
  unfold matchG2 at h
  by_cases hd : (takeDigits4 l).1.isEmpty
  · rw [if_pos hd] at h; cases h
  · rw [if_neg hd] at h
    have h' := Option.some_inj.mp h
    have hg : (takeDigits4 l).1 ++ (g2Star l.length (takeDigits4 l).2).1 = g2 :=
      congrArg Prod.fst h'
    exact ⟨_, _, hg.symm, takeDigits4_digits l, by simpa using hd,
      takeDigits4_len l, g2Star_starOut _ _⟩

theorem phraseGo_shape :
    ∀ (l acc g1 g2 r : List Char), phraseGo acc l = some (g1, g2, r) → G2Shape g2 := by
  intro l
  induction l with
  | nil => intro acc g1 g2 r h; cases h
  | cons c rest ih =>
    intro acc g1 g2 r h
    unfold phraseGo at h
    by_cases hcl : isPhraseClass c = true
    · rw [if_pos hcl] at h
      rcases hm : matchG2 (rest.dropWhile isSpaceC) with _ | ⟨g2', r'⟩
      · rw [hm] at h
        exact ih _ _ _ _ h
      · rw [hm] at h
        have h' := Option.some_inj.mp h
        have hg : g2' = g2 := congrArg (fun t => t.2.1) h'
        exact hg ▸ matchG2_shape _ _ _ hm
    · rw [if_neg hcl] at h; cases h

theorem matchPhraseNums_shape (l g1 g2 r : List Char)
    (h : matchPhraseNums l = some (g1, g2, r)) : G2Shape g2 :=
  phraseGo_shape l [] g1 g2 r h

theorem phraseFromSpaces_shape :
    ∀ (j : ℕ) (l g1 g2 r : List Char), phraseFromSpaces j l = some (g1, g2, r) → G2Shape g2 := by
  intro j
  induction j with
  | zero => intro l g1 g2 r h; cases h
  | succ j ih =>
    intro l g1 g2 r h
    unfold phraseFromSpaces at h
    rcases hm : matchPhraseNums (l.drop (j + 1)) with _ | res
    · rw [hm] at h
      simp only [Option.orElse] at h
      exact ih l g1 g2 r h
    · rw [hm] at h
      simp only [Option.orElse] at h
      obtain ⟨a, b, c⟩ := res
      have h' := Option.some_inj.mp h
      have hg : b = g2 := congrArg (fun t => t.2.1) h'
      exact hg ▸ matchPhraseNums_shape _ _ _ _ hm

theorem preGo_shape (ci : Bool) :
    ∀ (l : List Char) (g1 g2 r : List Char), preGo ci l = some (g1, g2, r) → G2Shape g2 := by
  intro l
  induction l with
  | nil => intro g1 g2 r h; cases h
  | cons c rest ih =>
    intro g1 g2 r h
    unfold preGo at h
    by_cases hs : isSpaceC c = true
    · rw [if_pos hs] at h
      rcases hk : matchKeyword ci rest with _ | r1
      · rw [hk] at h
        simp only at h
        by_cases hp : isPreClass c = true
        · rw [if_pos hp] at h; exact ih _ _ _ h
        · rw [if_neg hp] at h; cases h
      · rw [hk] at h
        dsimp only at h
        by_cases hn : (r1.takeWhile isSpaceC).length = 0
        · rw [if_pos hn] at h
          simp only at h
          by_cases hp : isPreClass c = true
          · rw [if_pos hp] at h; exact ih _ _ _ h
          · rw [if_neg hp] at h; cases h
        · rw [if_neg hn] at h
          rcases hps : phraseFromSpaces ((r1.takeWhile isSpaceC).length) r1 with _ | res
          · rw [hps] at h
            simp only at h
            by_cases hp : isPreClass c = true
            · rw [if_pos hp] at h; exact ih _ _ _ h
            · rw [if_neg hp] at h; cases h
          · rw [hps] at h
            simp only at h
            obtain ⟨a, b, cc⟩ := res
            have h' := Option.some_inj.mp h
            have hg : b = g2 := congrArg (fun t => t.2.1) h'
            exact hg ▸ phraseFromSpaces_shape _ _ _ _ _ hps
    · rw [if_neg hs] at h
      simp only at h
      by_cases hp : isPreClass c = true
      · rw [if_pos hp] at h; exact ih _ _ _ h
      · rw [if_neg hp] at h; cases h

theorem matchAt_shape (withPre ci : Bool) (l g1 g2 r : List Char)
    (h : matchAt withPre ci l = some (g1, g2, r)) : G2Shape g2 := by
  unfold matchAt at h
  rcases withPre with _ | _
  · rw [if_neg (by decide)] at h
    exact matchPhraseNums_shape _ _ _ _ h
  · rw [if_pos rfl] at h
    rcases hp : preGo ci l with _ | res
    · rw [hp] at h
      exact matchPhraseNums_shape _ _ _ _ h
    · rw [hp] at h
      obtain ⟨a, b, cc⟩ := res
      have h' := Option.some_inj.mp h
      have hg : b = g2 := congrArg (fun t => t.2.1) h'
      exact hg ▸ preGo_shape ci _ _ _ _ hp

theorem finditerGo_succ (withPre ci : Bool) (fuel : ℕ) (l : List Char) :
    finditerGo withPre ci (fuel + 1) l =
      match matchAt withPre ci l with
      | some (g1, g2, rest) => (g1, g2) :: finditerGo withPre ci fuel rest
      | none =>
        match l with
        | [] => []
        | _ :: t => finditerGo withPre ci fuel t := rfl

theorem finditerGo_shape (withPre ci : Bool) :
    ∀ (fuel : ℕ) (l : List Char) (m : List Char × List Char),
      m ∈ finditerGo withPre ci fuel l → G2Shape m.2 := by
  intro fuel
  induction fuel with
  | zero => intro l m hm; cases hm
  | succ fuel ih =>
    intro l m hm
    rw [finditerGo_succ] at hm
    rcases ha : matchAt withPre ci l with _ | res
    · rw [ha] at hm
      rcases l with _ | ⟨c, t⟩
      · cases hm
      · exact ih t m hm
    · rw [ha] at hm
      obtain ⟨g1, g2, r⟩ := res
      rcases List.mem_cons.mp hm with rfl | hm'
      · exact matchAt_shape withPre ci l g1 g2 r ha
      · exact ih r m hm'

theorem patternMatches_shape (withPre ci : Bool) (text : List Char)
    (m : List Char × List Char) (hm : m ∈ patternMatches withPre ci text) : G2Shape m.2 :=
  finditerGo_shape withPre ci _ text m hm

theorem space_not_digit (c : Char) (h : isSpaceC c = true) : isDigitC c = false := by
  simp only [isSpaceC, Bool.or_eq_true, decide_eq_true_eq] at h
  rcases h with ((((h | h) | h) | h) | h) | h <;> subst h <;> decide

theorem digit_not_space (c : Char) (h : isDigitC c = true) : isSpaceC c = false := by
  by_cases hs : isSpaceC c = true
  · rw [space_not_digit c hs] at h; cases h
  · exact Bool.eq_false_iff.mpr hs

theorem dropWhile_all_fails {p : Char → Bool} : ∀ l : List Char,
    (∀ c ∈ l, p c = false) → l.dropWhile p = l := by
  intro l h
  cases l with
  | nil => rfl
  | cons c r =>
    rw [List.dropWhile_cons, if_neg (by rw [h c (List.mem_cons_self _ _)]; exact fun hh => nomatch hh)]

theorem pyStrip_digits (ds : List Char) (hds : ∀ c ∈ ds, isDigitC c = true) :
    pyStrip ds = ds := by
  unfold pyStrip
  rw [dropWhile_all_fails ds (fun c hc => digit_not_space c (hds c hc)),
    dropWhile_all_fails ds.reverse
      (fun c hc => digit_not_space c (hds c (List.mem_reverse.mp hc))),
    List.reverse_reverse]

theorem pyStrip_space_digits (sp ds : List Char)
    (hsp : ∀ c ∈ sp, isSpaceC c = true) (hds : ∀ c ∈ ds, isDigitC c = true)
    (hne : ds ≠ []) : pyStrip (sp ++ ds) = ds := by
  unfold pyStrip
  have h1 : (sp ++ ds).dropWhile isSpaceC = ds := by
    induction sp with
    | nil =>
      exact dropWhile_all_fails ds fun c hc => digit_not_space c (hds c hc)
    | cons c r ih =>
      rw [List.cons_append, List.dropWhile_cons,
        if_pos (by rw [hsp c (List.mem_cons_self _ _)])]
      exact ih fun d hd => hsp d (List.mem_cons_of_mem _ hd)
  rw [h1, dropWhile_all_fails ds.reverse
    (fun c hc => digit_not_space c (hds c (List.mem_reverse.mp hc))),
    List.reverse_reverse]

theorem pySplitComma_ne_nil : ∀ l : List Char, pySplitComma l ≠ [] := by
  intro l
  cases l with
  | nil => exact fun h => nomatch h
  | cons c r =>
    unfold pySplitComma
    by_cases hc : c = ','
    · rw [if_pos hc]; exact fun h => nomatch h
    · rw [if_neg hc]
      rcases hs : pySplitComma r with _ | ⟨p, ps⟩
      · exact fun h => nomatch h
      · exact fun h => nomatch h

theorem pySplitComma_append_noComma (a : List Char) (ha : ∀ c ∈ a, c ≠ ',') :
    ∀ (b : List Char) (p : List Char) (ps : List (List Char)),
      pySplitComma b = p :: ps → pySplitComma (a ++ b) = (a ++ p) :: ps := by
  induction a with
  | nil => intro b p ps h; simpa using h
  | cons c a ih =>
    intro b p ps h
    have hc : c ≠ ',' := ha c (List.mem_cons_self _ _)
    show pySplitComma (c :: (a ++ b)) = ((c :: a) ++ p) :: ps
    unfold pySplitComma
    rw [if_neg hc, ih (fun d hd => ha d (List.mem_cons_of_mem _ hd)) b p ps h]
    rfl

/-- A well-formed piece of the numeral group: spaces then one to four
digits. -/
def GoodPiece (x : List Char) : Prop :=
  ∃ sp ds, x = sp ++ ds ∧ (∀ c ∈ sp, isSpaceC c = true) ∧
    (∀ c ∈ ds, isDigitC c = true) ∧ ds ≠ [] ∧ ds.length ≤ 4

theorem starOut_split (more : List Char) (h : StarOut more) :
    ∃ ps, pySplitComma more = [] :: ps ∧ ∀ x ∈ ps, GoodPiece x := by
  induction h with
  | nil => exact ⟨[], rfl, by simp⟩
  | cons sp ds rest hsp hds hne hlen _ ih =>
    obtain ⟨ps, hps, hgood⟩ := ih
    have hnc : ∀ c ∈ sp ++ ds, c ≠ ',' := by
      intro c hc h0
      subst h0
      rcases List.mem_append.mp hc with h | h
      · exact absurd (hsp _ h) (by decide)
      · exact absurd (hds _ h) (by decide)
    refine ⟨(sp ++ ds) :: ps, ?_, ?_⟩
    · show pySplitComma (',' :: ((sp ++ ds) ++ rest)) = [] :: (sp ++ ds) :: ps
      unfold pySplitComma
      rw [if_pos rfl]
      rw [pySplitComma_append_noComma (sp ++ ds) hnc rest [] ps hps]
      rw [List.append_nil]
    · intro x hx
      rcases List.mem_cons.mp hx with rfl | hx'
      · exact ⟨sp, ds, rfl, hsp, hds, hne, hlen⟩
      · exact hgood x hx'

/-- Split-and-strip of a shaped numeral group: every piece strips to a
numeral of one to four digits. -/
theorem g2Shape_pieces (g2 : List Char) (h : G2Shape g2) :
    ∀ x ∈ pySplitComma g2, pyIsDigit (pyStrip x) = true ∧ (pyStrip x).length ≤ 4 := by
  obtain ⟨ds, more, rfl, hds, hne, hlen, hstar⟩ := h
  obtain ⟨ps, hps, hgood⟩ := starOut_split more hstar
  have hnc : ∀ c ∈ ds, c ≠ ',' := by
    intro c hc h0
    subst h0
    exact absurd (hds _ hc) (by decide)
  rw [pySplitComma_append_noComma ds hnc more [] ps hps]
  intro x hx
  rcases List.mem_cons.mp hx with rfl | hx'
  · rw [List.append_nil, pyStrip_digits ds hds]
    refine ⟨?_, hlen⟩
    simp only [pyIsDigit, Bool.and_eq_true, List.all_eq_true]
    exact ⟨by simpa [List.isEmpty_iff] using hne, hds⟩
  · obtain ⟨sp, ds', rfl, hsp, hds', hne', hlen'⟩ := hgood x hx'
    rw [pyStrip_space_digits sp ds' hsp hds' hne']
    refine ⟨?_, hlen'⟩
    simp only [pyIsDigit, Bool.and_eq_true, List.all_eq_true]
    exact ⟨by simpa [List.isEmpty_iff] using hne', hds'⟩

/-! ## Candidate table invariants -/

/-- Every candidate table entry carries a numeral key of one to four
digits and a nonempty label list. -/
def GoodEntry (p : List Char × List (List Char)) : Prop :=
  pyIsDigit p.1 = true ∧ p.1.length ≤ 4 ∧ p.2 ≠ []

theorem pyIsDigit_one_le (l : List Char) (h : pyIsDigit l = true) : 1 ≤ l.length := by
  rcases l with _ | ⟨c, r⟩
  · cases h
  · simp

theorem numFoldStep_fold_entries (label : List Char) :
    ∀ chunks : List (List Char), (∀ x ∈ chunks, (pyStrip x).length ≤ 4) →
      ∀ d, (∀ p ∈ d, GoodEntry p) →
      ∀ p ∈ chunks.foldl (numFoldStep label) d, GoodEntry p := by
  intro chunks
  induction chunks with
  | nil => intro _ d hd p hp; exact hd p hp
  | cons x xs ih =>
    intro hlen d hd p hp
    refine ih (fun y hy => hlen y (List.mem_cons_of_mem _ hy)) _ ?_ p hp
    intro q hq
    unfold numFoldStep at hq
    by_cases hc : pyIsDigit (pyStrip x) = true
    · rw [if_pos hc] at hq
      rcases candInsert_entry_cases d _ _ q hq with h | h
      · exact hd q h
      · exact ⟨h.1.symm ▸ hc, h.1.symm ▸ hlen x (List.mem_cons_self _ _), h.2⟩
    · rw [if_neg hc] at hq
      exact hd q hq

theorem numFoldStep4_fold_entries (label : List Char) :
    ∀ chunks : List (List Char),
      ∀ d, (∀ p ∈ d, GoodEntry p) →
      ∀ p ∈ chunks.foldl (numFoldStep4 label) d, GoodEntry p := by
  intro chunks
  induction chunks with
  | nil => intro d hd p hp; exact hd p hp
  | cons x xs ih =>
    intro d hd p hp
    refine ih _ ?_ p hp
    intro q hq
    unfold numFoldStep4 at hq
    by_cases hc : (pyIsDigit (pyStrip x) && decide ((pyStrip x).length ≤ 4)) = true
    · rw [if_pos hc] at hq
      obtain ⟨hc1, hc2⟩ := Bool.and_eq_true .. ▸ hc
      rcases candInsert_entry_cases d _ _ q hq with h | h
      · exact hd q h
      · exact ⟨h.1.symm ▸ hc1, h.1.symm ▸ (by exact_mod_cast of_decide_eq_true hc2), h.2⟩
    · rw [if_neg hc] at hq
      exact hd q hq

theorem matchFoldStep_fold_entries (normalize : List Char → List Char) :
    ∀ ms : List (List Char × List Char), (∀ m ∈ ms, G2Shape m.2) →
      ∀ d, (∀ p ∈ d, GoodEntry p) →
      ∀ p ∈ ms.foldl (matchFoldStep normalize) d, GoodEntry p := by
  intro ms
  induction ms with
  | nil => intro _ d hd p hp; exact hd p hp
  | cons m ms ih =>
    intro hsh d hd p hp
    refine ih (fun m' hm' => hsh m' (List.mem_cons_of_mem _ hm')) _ ?_ p hp
    intro q hq
    unfold matchFoldStep at hq
    by_cases h1 : containsFigRef m.1 = true
    · rw [if_pos h1] at hq; exact hd q hq
    · rw [if_neg h1] at hq
      by_cases h2 : (normalize (pyLower m.1)).isEmpty = true
      · rw [if_pos h2] at hq; exact hd q hq
      · rw [if_neg h2] at hq
        exact numFoldStep_fold_entries _ _
          (fun x hx => (g2Shape_pieces m.2 (hsh m (List.mem_cons_self _ _)) x hx).2)
          d hd q hq

theorem matchFoldStepL_fold_entries (normalize : List Char → List Char) :
    ∀ ms : List (List Char × List Char),
      ∀ d, (∀ p ∈ d, GoodEntry p) →
      ∀ p ∈ ms.foldl (matchFoldStepL normalize) d, GoodEntry p := by
  intro ms
  induction ms with
  | nil => intro d hd p hp; exact hd p hp
  | cons m ms ih =>
    intro d hd p hp
    refine ih _ ?_ p hp
    intro q hq
    unfold matchFoldStepL at hq
    by_cases h1 : containsFigRef m.1 = true
    · rw [if_pos h1] at hq; exact hd q hq
    · rw [if_neg h1] at hq
      by_cases h2 : (normalize m.1).isEmpty = true
      · rw [if_pos h2] at hq; exact hd q hq
      · rw [if_neg h2] at hq
        exact numFoldStep4_fold_entries _ _ d hd q hq

theorem textAnalyzerCandidates_entries (normalize : List Char → List Char)
    (text : List Char) :
    ∀ p ∈ textAnalyzerCandidates normalize text, GoodEntry p :=
  matchFoldStep_fold_entries normalize _
    (fun m hm => patternMatches_shape true false text m hm) []
    (fun p hp => absurd hp (List.not_mem_nil p))

theorem labelssCandidates_entries (normalize : List Char → List Char)
    (text : List Char) :
    ∀ p ∈ labelssCandidates normalize text, GoodEntry p :=
  matchFoldStepL_fold_entries normalize _ []
    (fun p hp => absurd hp (List.not_mem_nil p))

/-! ## Key uniqueness of the candidate tables -/

theorem foldl_preserves_keys_nodup {β : Type}
    (step : List (List Char × List (List Char)) → β → List (List Char × List (List Char)))
    (hstep : ∀ d x, (d.map Prod.fst).Nodup → ((step d x).map Prod.fst).Nodup) :
    ∀ (xs : List β) d, (d.map Prod.fst).Nodup → ((xs.foldl step d).map Prod.fst).Nodup := by
  intro xs
  induction xs with
  | nil => intro d hd; exact hd
  | cons x xs ih => intro d hd; exact ih _ (hstep d x hd)

theorem numFoldStep_keys_nodup (label : List Char) (d : List (List Char × List (List Char)))
    (x : List Char) (hd : (d.map Prod.fst).Nodup) :
    (((numFoldStep label d x).map Prod.fst)).Nodup := by
  unfold numFoldStep
  by_cases hc : pyIsDigit (pyStrip x) = true
  · rw [if_pos hc]; exact candInsert_keys_nodup d _ _ hd
  · rw [if_neg hc]; exact hd

theorem numFoldStep4_keys_nodup (label : List Char) (d : List (List Char × List (List Char)))
    (x : List Char) (hd : (d.map Prod.fst).Nodup) :
    (((numFoldStep4 label d x).map Prod.fst)).Nodup := by
  unfold numFoldStep4
  by_cases hc : (pyIsDigit (pyStrip x) && decide ((pyStrip x).length ≤ 4)) = true
  · rw [if_pos hc]; exact candInsert_keys_nodup d _ _ hd
  · rw [if_neg hc]; exact hd

theorem matchFoldStep_keys_nodup (normalize : List Char → List Char)
    (d : List (List Char × List (List Char))) (m : List Char × List Char)
    (hd : (d.map Prod.fst).Nodup) :
    (((matchFoldStep normalize d m).map Prod.fst)).Nodup := by
  unfold matchFoldStep
  by_cases h1 : containsFigRef m.1 = true
  · rw [if_pos h1]; exact hd
  · rw [if_neg h1]
    by_cases h2 : (normalize (pyLower m.1)).isEmpty = true
    · rw [if_pos h2]; exact hd
    · rw [if_neg h2]
      exact foldl_preserves_keys_nodup _ (numFoldStep_keys_nodup _) _ d hd

theorem matchFoldStepL_keys_nodup (normalize : List Char → List Char)
    (d : List (List Char × List (List Char))) (m : List Char × List Char)
    (hd : (d.map Prod.fst).Nodup) :
    (((matchFoldStepL normalize d m).map Prod.fst)).Nodup := by
  unfold matchFoldStepL
  by_cases h1 : containsFigRef m.1 = true
  · rw [if_pos h1]; exact hd
  · rw [if_neg h1]
    by_cases h2 : (normalize m.1).isEmpty = true
    · rw [if_pos h2]; exact hd
    · rw [if_neg h2]
      exact foldl_preserves_keys_nodup _ (numFoldStep4_keys_nodup _) _ d hd

theorem textAnalyzerCandidates_keys_nodup (normalize : List Char → List Char)
    (text : List Char) :
    ((textAnalyzerCandidates normalize text).map Prod.fst).Nodup :=
  foldl_preserves_keys_nodup _ (matchFoldStep_keys_nodup normalize) _ [] List.nodup_nil

theorem labelssCandidates_keys_nodup (normalize : List Char → List Char)
    (text : List Char) :
    ((labelssCandidates normalize text).map Prod.fst).Nodup :=
  foldl_preserves_keys_nodup _ (matchFoldStepL_keys_nodup normalize) _ [] List.nodup_nil

/-! ## Merge-stage lemmas -/

/-- An entry of the merged mapping: its label is the set-order choice for
its candidate list. -/
def MergeEntry (setOrder : List (List Char) → List (List Char))
    (cands : List (List Char × List (List Char))) (p : List Char × List Char) : Prop :=
  ∃ labs, dictLookup p.1 cands = some labs ∧ p.2 = pickUnique setOrder labs

theorem mergeStep1_fold_entries (so : List (List Char) → List (List Char))
    (cands : List (List Char × List (List Char))) :
    ∀ (detected : List (List Char)) f0, (∀ p ∈ f0, MergeEntry so cands p) →
      ∀ p ∈ detected.foldl (mergeStep1 so cands) f0, MergeEntry so cands p := by
  intro detected
  induction detected with
  | nil => intro f0 h0 p hp; exact h0 p hp
  | cons n rest ih =>
    intro f0 h0 p hp
    refine ih _ ?_ p hp
    intro q hq
    unfold mergeStep1 at hq
    rcases hl : dictLookup n cands with _ | labels
    · rw [hl] at hq; exact h0 q hq
    · rw [hl] at hq
      rcases dictInsert_entry_cases f0 n (pickUnique so labels) q hq with rfl | h
      · exact ⟨labels, hl, rfl⟩
      · exact h0 q h

theorem mergeStep2_fold_entries (so : List (List Char) → List (List Char))
    (cands : List (List Char × List (List Char)))
    (hnd : (cands.map Prod.fst).Nodup) :
    ∀ cs : List (List Char × List (List Char)), (∀ q ∈ cs, q ∈ cands) →
      ∀ f0, (∀ p ∈ f0, MergeEntry so cands p) →
      ∀ p ∈ cs.foldl (mergeStep2 so) f0, MergeEntry so cands p := by
  intro cs
  induction cs with
  | nil => intro _ f0 h0 p hp; exact h0 p hp
  | cons q cs ih =>
    intro hsub f0 h0 p hp
    refine ih (fun x hx => hsub x (List.mem_cons_of_mem _ hx)) _ ?_ p hp
    intro x hx
    unfold mergeStep2 at hx
    by_cases hc : ((dictLookup q.1 f0).isNone && !q.2.isEmpty) = true
    · rw [if_pos hc] at hx
      rcases dictInsert_entry_cases f0 q.1 (pickUnique so q.2) x hx with rfl | h
      · exact ⟨q.2, mem_dictLookup_of_nodup cands q.1 q.2 hnd (by
          have := hsub q (List.mem_cons_self _ _)
          simpa using this), rfl⟩
      · exact h0 x h
    · rw [if_neg hc] at hx
      exact h0 x hx

theorem mergeStep1_fold_lookup_none (so : List (List Char) → List (List Char))
    (cands : List (List Char × List (List Char))) (num : List Char) :
    ∀ (detected : List (List Char)) f0, dictLookup num f0 = none → num ∉ detected →
      dictLookup num (detected.foldl (mergeStep1 so cands) f0) = none := by
  intro detected
  induction detected with
  | nil => intro f0 h0 _; exact h0
  | cons n rest ih =>
    intro f0 h0 hnm
    refine ih _ ?_ fun hm => hnm (List.mem_cons_of_mem _ hm)
    have hne : n ≠ num := fun hh => hnm (hh ▸ List.mem_cons_self _ _)
    unfold mergeStep1
    rcases hl : dictLookup n cands with _ | labels
    · exact h0
    · rw [dictLookup_insert, if_neg hne]
      exact h0

theorem mergeStep2_fold_lookup_preserved (so : List (List Char) → List (List Char))
    (num : List Char) :
    ∀ cs : List (List Char × List (List Char)), num ∉ cs.map Prod.fst →
      ∀ f0, dictLookup num (cs.foldl (mergeStep2 so) f0) = dictLookup num f0 := by
  intro cs
  induction cs with
  | nil => intro _ f0; rfl
  | cons q cs ih =>
    intro hnm f0
    have hq : q.1 ≠ num := by
      intro hh
      exact hnm (List.mem_map.mpr ⟨q, List.mem_cons_self _ _, hh⟩)
    have hnm' : num ∉ cs.map Prod.fst := by
      intro hm
      rcases List.mem_map.mp hm with ⟨x, hx, hxx⟩
      exact hnm (List.mem_map.mpr ⟨x, List.mem_cons_of_mem _ hx, hxx⟩)
    rw [List.foldl_cons, ih hnm']
    unfold mergeStep2
    by_cases hc : ((dictLookup q.1 f0).isNone && !q.2.isEmpty) = true
    · rw [if_pos hc, dictLookup_insert, if_neg hq]
    · rw [if_neg hc]

theorem mergeStep2_fold_lookup (so : List (List Char) → List (List Char)) :
    ∀ cs : List (List Char × List (List Char)), (cs.map Prod.fst).Nodup →
      ∀ (f0 : List (List Char × List Char)) (num : List Char) (labs : List (List Char)),
        (num, labs) ∈ cs → labs ≠ [] → dictLookup num f0 = none →
        dictLookup num (cs.foldl (mergeStep2 so) f0) = some (pickUnique so labs) := by
  intro cs
  induction cs with
  | nil => intro _ f0 num labs hm; cases hm
  | cons q cs ih =>
    intro hnd f0 num labs hm hlne h0
    rw [List.map_cons, List.nodup_cons] at hnd
    rcases List.mem_cons.mp hm with rfl | hm'
    · -- q = (num, labs); num is not a key of cs
      have hnum : num ∉ cs.map Prod.fst := hnd.1
      rw [List.foldl_cons, mergeStep2_fold_lookup_preserved so num cs hnum]
      unfold mergeStep2
      rw [if_pos (by simp [h0, List.isEmpty_iff, hlne])]
      rw [dictLookup_insert, if_pos rfl]
    · have hq : q.1 ≠ num := by
        intro hh
        exact hnd.1 (hh ▸ List.mem_map.mpr ⟨(num, labs), hm', rfl⟩)
      rw [List.foldl_cons]
      refine ih hnd.2 _ num labs hm' hlne ?_
      unfold mergeStep2
      by_cases hc : ((dictLookup q.1 f0).isNone && !q.2.isEmpty) = true
      · rw [if_pos hc, dictLookup_insert, if_neg hq]
        exact h0
      · rw [if_neg hc]
        exact h0

theorem mergeStep2_fold_lookup_some (so : List (List Char) → List (List Char)) :
    ∀ (cs : List (List Char × List (List Char))) (f0 : List (List Char × List Char))
      (num : List Char) (v : List Char), dictLookup num f0 = some v →
      dictLookup num (cs.foldl (mergeStep2 so) f0) = some v := by
  intro cs
  induction cs with
  | nil => intro f0 num v h; exact h
  | cons q cs ih =>
    intro f0 num v h
    rw [List.foldl_cons]
    refine ih _ num v ?_
    unfold mergeStep2
    by_cases hc : ((dictLookup q.1 f0).isNone && !q.2.isEmpty) = true
    · have hq : q.1 ≠ num := by
        intro hh
        rw [hh, h] at hc
        simp [Option.isNone] at hc
      rw [if_pos hc, dictLookup_insert, if_neg hq]
      exact h
    · rw [if_neg hc]
      exact h

theorem finalStep_fold_entries (cands : List (List Char × List (List Char)))
    (hnd : (cands.map Prod.fst).Nodup) :
    ∀ cs : List (List Char × List (List Char)), (∀ q ∈ cs, q ∈ cands) →
      ∀ f0 : List (List Char × List Char),
      (∀ p ∈ f0, ∃ labs, dictLookup p.1 cands = some labs ∧ labs ≠ [] ∧
        p.2 = leftmostShortest labs) →
      ∀ p ∈ cs.foldl finalStep f0, ∃ labs, dictLookup p.1 cands = some labs ∧ labs ≠ [] ∧
        p.2 = leftmostShortest labs := by
  intro cs
  induction cs with
  | nil => intro _ f0 h0 p hp; exact h0 p hp
  | cons q cs ih =>
    intro hsub f0 h0 p hp
    refine ih (fun x hx => hsub x (List.mem_cons_of_mem _ hx)) _ ?_ p hp
    intro x hx
    unfold finalStep at hx
    by_cases he : q.2.isEmpty = true
    · rw [if_pos he] at hx
      exact h0 x hx
    · rw [if_neg he] at hx
      rcases dictInsert_entry_cases f0 q.1 (leftmostShortest q.2) x hx with rfl | h
      · refine ⟨q.2, mem_dictLookup_of_nodup cands q.1 q.2 hnd (by
          have := hsub q (List.mem_cons_self _ _)
          simpa using this), by simpa [List.isEmpty_iff] using he, rfl⟩
      · exact h0 x h

/-! ## C8 -/

/-- C8: every key of the mapping produced by the text extractor and by the
correlation engine is a purely numeric string of one to four digit
characters. -/
theorem extraction_keys_one_to_four_digits :
    (∀ (normalize : List Char → List Char) (text : List Char) (p : List Char × List Char),
      p ∈ extract_number_descriptions_from_text normalize text →
      pyIsDigit p.1 = true ∧ 1 ≤ p.1.length ∧ p.1.length ≤ 4) ∧
    (∀ (normalize : List Char → List Char) (setOrder : List (List Char) → List (List Char))
      (text : List Char) (detected : List (List Char)) (p : List Char × List Char),
      p ∈ extract_descriptions_from_text normalize setOrder text detected →
      pyIsDigit p.1 = true ∧ 1 ≤ p.1.length ∧ p.1.length ≤ 4) := by
  constructor
  · intro normalize text p hp
    obtain ⟨labs, hlk, -, -⟩ := finalStep_fold_entries _
      (textAnalyzerCandidates_keys_nodup normalize text) _ (fun q hq => hq) []
      (fun q hq => absurd hq (List.not_mem_nil q)) p hp
    have hg := textAnalyzerCandidates_entries normalize text _ (dictLookup_some_mem _ _ _ hlk)
    exact ⟨hg.1, pyIsDigit_one_le _ hg.1, hg.2.1⟩
  · intro normalize setOrder text detected p hp
    have hp' : p ∈ (labelssCandidates normalize text).foldl (mergeStep2 setOrder)
        (detected.foldl (mergeStep1 setOrder (labelssCandidates normalize text)) []) := hp
    obtain ⟨labs, hlk, -⟩ := mergeStep2_fold_entries setOrder _
      (labelssCandidates_keys_nodup normalize text) _ (fun q hq => hq) _
      (mergeStep1_fold_entries setOrder _ detected []
        (fun q hq => absurd hq (List.not_mem_nil q))) p hp'
    have hg := labelssCandidates_entries normalize text _ (dictLookup_some_mem _ _ _ hlk)
    exact ⟨hg.1, pyIsDigit_one_le _ hg.1, hg.2.1⟩

/-- C8 witness: the extractors on a small concrete text. -/
theorem extraction_keys_one_to_four_digits_witness :
    pyIsDigit "12".toList = true ∧ 1 ≤ "12".toList.length ∧ "12".toList.length ≤ 4 :=
  extraction_keys_one_to_four_digits.1 pyStrip "ab 12".toList
    ("12".toList, "ab".toList) (by decide)

/-! ## C7 -/

/-- C7: a numeral that has text candidates but is not among the detected
numerals is still present in the correlation result, with the same chosen
label as the text-only run (empty detections) produces for it. -/
theorem text_only_numerals_retained
    (normalize : List Char → List Char) (setOrder : List (List Char) → List (List Char))
    (text : List Char) (detected : List (List Char)) (num : List Char)
    (labs : List (List Char))
    (hlk : dictLookup num (labelssCandidates normalize text) = some labs)
    (hnd : num ∉ detected) :
    dictLookup num (extract_descriptions_from_text normalize setOrder text detected) =
      some (pickUnique setOrder labs) ∧
    dictLookup num (extract_descriptions_from_text normalize setOrder text []) =
      some (pickUnique setOrder labs) := by
  have hmem := dictLookup_some_mem _ _ _ hlk
  have hlne : labs ≠ [] := (labelssCandidates_entries normalize text _ hmem).2.2
  have hknd := labelssCandidates_keys_nodup normalize text
  constructor
  · show dictLookup num ((labelssCandidates normalize text).foldl (mergeStep2 setOrder)
      (detected.foldl (mergeStep1 setOrder (labelssCandidates normalize text)) [])) = _
    exact mergeStep2_fold_lookup setOrder _ hknd _ num labs hmem hlne
      (mergeStep1_fold_lookup_none setOrder _ num detected [] rfl hnd)
  · show dictLookup num ((labelssCandidates normalize text).foldl (mergeStep2 setOrder)
      (([] : List (List Char)).foldl
        (mergeStep1 setOrder (labelssCandidates normalize text)) [])) = _
    exact mergeStep2_fold_lookup setOrder _ hknd _ num labs hmem hlne rfl

/-- C7 witness: numeral 7 has a text label, only numeral 9 was "detected";
7 is still mapped, identically to the text-only run. -/
theorem text_only_numerals_retained_witness :
    dictLookup "7".toList (extract_descriptions_from_text pyStrip List.dedup
        "lever 7".toList ["9".toList]) = some "lever".toList ∧
    dictLookup "7".toList (extract_descriptions_from_text pyStrip List.dedup
        "lever 7".toList []) = some "lever".toList :=
  text_only_numerals_retained pyStrip List.dedup "lever 7".toList ["9".toList]
    "7".toList ["lever".toList, "lever".toList] (by decide) (by decide)

/-! ## C2 -/

/-- An identity stand-in for the spaCy normalizer: it maps the phrase
"body" to itself, as the real normalizer does for a bare noun. -/
def idOracle : List Char → List Char := fun l => l

/-- C2: evaluating the extractor at the failing input "body 12345".  The
numeral pattern `\d{1,4}` is not anchored at a word boundary, so the
five-digit token "12345" is split: its first four digits are captured and
"1234" becomes a key of the returned mapping, contradicting the claim that
a five-or-more-digit token never contributes a key. -/
theorem five_digit_token_contributes :
    extract_number_descriptions_from_text idOracle "body 12345".toList =
      [("1234".toList, "body".toList)] := by decide

/-! ## C1 -/

/-- Normalizer stand-in for the merge example: strips periods and outer
whitespace, so "flexible main body" and ". main body of the invention"
normalize to the two candidate labels of the claim. -/
def mergeOracle : List Char → List Char := fun l => pyStrip (l.filter fun c => c ≠ '.')

/-- The text of the merge example: numeral 100 receives the candidates
"flexible main body" and "main body of the invention". -/
def mergeText : List Char :=
  "flexible main body 100. main body of the invention 100.".toList

/-- C1 as stated: the label assigned by the correlation engine is always
the first-seen shortest candidate, whatever order the Python set
enumeration produced. -/
def C1Claim : Prop :=
  ∀ (normalize : List Char → List Char) (setOrder : List (List Char) → List (List Char))
    (text : List Char) (detected : List (List Char)) (p : List Char × List Char)
    (labs : List (List Char)),
    (∀ l, IsSetListing (setOrder l) l) →
    p ∈ extract_descriptions_from_text normalize setOrder text detected →
    dictLookup p.1 (labelssCandidates normalize text) = some labs →
    FirstSeenShortest p.2 labs

/-- The set enumeration that lists the distinct labels in reversed
deduplication order — a legitimate hash order for a Python set. -/
def revDedup : List (List Char) → List (List Char) := fun l => l.dedup.reverse

theorem revDedup_isSetListing (l : List (List Char)) : IsSetListing (revDedup l) l :=
  ⟨List.nodup_reverse.mpr l.nodup_dedup,
    fun x => by rw [revDedup, List.mem_reverse, List.mem_dedup]⟩

/-- Normalizer stand-in for the counterexample text. -/
def ceOracle : List Char → List Char := fun l => pyStrip (l.filter fun c => c ≠ '.')

/-- Counterexample text: numeral 7 collects the equal-length candidates
"ab" (first seen) and "cd". -/
def ceText : List Char := "ab 7. cd 7".toList

/-- C1, counterexample: the merge computes `sorted(list(set(labels)),
key=len)[0]`; the `set` forgets insertion order, so under a hash order
that enumerates "cd" before "ab" the engine assigns "cd" to numeral 7 even
though the first-seen equally-short candidate is "ab".  The claimed
first-seen tie-break is therefore false of the code. -/
theorem shortest_label_counterexample : ¬C1Claim := by
  intro h
  have hmem : (("7".toList, "cd".toList) : List Char × List Char) ∈
      extract_descriptions_from_text ceOracle revDedup ceText ["7".toList] := by decide
  have hlk : dictLookup "7".toList (labelssCandidates ceOracle ceText) =
      some ["ab".toList, "cd".toList, "ab".toList, "cd".toList] := by decide
  have hfs := h ceOracle revDedup ceText ["7".toList] _ _
    (fun l => revDedup_isSetListing l) hmem hlk
  obtain ⟨pre, post, hsplit, hpre, -⟩ := hfs
  cases pre with
  | nil =>
    simp only [List.nil_append] at hsplit
    injection hsplit with h1 h2
    exact absurd h1 (by decide)
  | cons a pre' =>
    rw [List.cons_append] at hsplit
    injection hsplit with h1 h2
    have := hpre a (List.mem_cons_self _ _)
    rw [← h1] at this
    exact absurd this (by decide)

/-- C1, amended: the assigned label is always a shortest candidate for its
numeral; in the text-analyzer path (`extract_labels.py`, where the
candidate list is sorted directly) ties are additionally broken by
first-seen order; in the correlation merge (`labelss.py`) the candidates
pass through a Python set first, so the tie order among equal-length
labels depends on the set's hash order (see the counterexample).  For the
claim's concrete example — numeral "100" detected in the image, candidates
"flexible main body" and "main body of the invention" — the unique
shortest candidate "flexible main body" is assigned under every set
order. -/
theorem shortest_label_chosen :
    (∀ (normalize : List Char → List Char) (setOrder : List (List Char) → List (List Char))
      (text : List Char) (detected : List (List Char)) (p : List Char × List Char),
      (∀ l, IsSetListing (setOrder l) l) →
      p ∈ extract_descriptions_from_text normalize setOrder text detected →
      ∃ labs, dictLookup p.1 (labelssCandidates normalize text) = some labs ∧
        p.2 ∈ labs ∧ ∀ x ∈ labs, p.2.length ≤ x.length) ∧
    (∀ (normalize : List Char → List Char) (text : List Char) (p : List Char × List Char),
      p ∈ extract_number_descriptions_from_text normalize text →
      ∃ labs, dictLookup p.1 (textAnalyzerCandidates normalize text) = some labs ∧
        FirstSeenShortest p.2 labs) ∧
    (∀ setOrder : List (List Char) → List (List Char),
      (∀ l, IsSetListing (setOrder l) l) →
      dictLookup "100".toList (extract_descriptions_from_text mergeOracle setOrder
        mergeText ["100".toList]) = some "flexible main body".toList) := by
  refine ⟨?_, ?_, ?_⟩
  · intro normalize setOrder text detected p hset hp
    have hp' : p ∈ (labelssCandidates normalize text).foldl (mergeStep2 setOrder)
        (detected.foldl (mergeStep1 setOrder (labelssCandidates normalize text)) []) := hp
    obtain ⟨labs, hlk, hpk⟩ := mergeStep2_fold_entries setOrder _
      (labelssCandidates_keys_nodup normalize text) _ (fun q hq => hq) _
      (mergeStep1_fold_entries setOrder _ detected []
        (fun q hq => absurd hq (List.not_mem_nil q))) p hp'
    have hlne : labs ≠ [] :=
      (labelssCandidates_entries normalize text _ (dictLookup_some_mem _ _ _ hlk)).2.2
    obtain ⟨hm, hmin⟩ := pickUnique_spec setOrder labs (hset labs) hlne
    exact ⟨labs, hlk, hpk ▸ hm, fun x hx => hpk ▸ hmin x hx⟩
  · intro normalize text p hp
    obtain ⟨labs, hlk, hlne, hpk⟩ := finalStep_fold_entries _
      (textAnalyzerCandidates_keys_nodup normalize text) _ (fun q hq => hq) []
      (fun q hq => absurd hq (List.not_mem_nil q)) p hp
    exact ⟨labs, hlk, hpk ▸ leftmostShortest_firstSeen labs hlne⟩
  · intro setOrder hset
    have hcand : labelssCandidates mergeOracle mergeText =
        [("100".toList, ["flexible main body".toList, "main body of the invention".toList,
          "flexible main body".toList, "main body of the invention".toList])] := by decide
    have h1 : dictLookup "100".toList
        ((["100".toList] : List (List Char)).foldl
          (mergeStep1 setOrder (labelssCandidates mergeOracle mergeText)) []) =
        some (pickUnique setOrder
          ["flexible main body".toList, "main body of the invention".toList,
            "flexible main body".toList, "main body of the invention".toList]) := by
      show dictLookup _ (mergeStep1 setOrder (labelssCandidates mergeOracle mergeText)
        [] "100".toList) = _
      unfold mergeStep1
      rw [show dictLookup "100".toList (labelssCandidates mergeOracle mergeText) =
        some ["flexible main body".toList, "main body of the invention".toList,
          "flexible main body".toList, "main body of the invention".toList] from by
          rw [hcand]; rfl]
      rw [dictLookup_insert, if_pos rfl]
    have h2 : dictLookup "100".toList (extract_descriptions_from_text mergeOracle setOrder
        mergeText ["100".toList]) =
        some (pickUnique setOrder
          ["flexible main body".toList, "main body of the invention".toList,
            "flexible main body".toList, "main body of the invention".toList]) := by
      show dictLookup "100".toList ((labelssCandidates mergeOracle mergeText).foldl
        (mergeStep2 setOrder) _) = _
      exact mergeStep2_fold_lookup_some setOrder _ _ _ _ h1
    rw [h2]
    have hpick : pickUnique setOrder
        ["flexible main body".toList, "main body of the invention".toList,
          "flexible main body".toList, "main body of the invention".toList] =
        "flexible main body".toList := by
      unfold pickUnique
      apply leftmostShortest_unique
      · exact ((hset _).2 "flexible main body".toList).mpr (by decide)
      · intro y hy
        have hy' : y ∈ ["flexible main body".toList, "main body of the invention".toList,
            "flexible main body".toList, "main body of the invention".toList] :=
          ((hset _).2 y).mp hy
        simp only [List.mem_cons, List.not_mem_nil, or_false] at hy'
        rcases hy' with rfl | rfl | rfl | rfl
        · exact Or.inl rfl
        · exact Or.inr (by decide)
        · exact Or.inl rfl
        · exact Or.inr (by decide)
    rw [hpick]

/-- C1 witness: the amended theorem at the concrete merge example, with
`List.dedup` as the set enumeration. -/
theorem shortest_label_chosen_witness :
    dictLookup "100".toList (extract_descriptions_from_text mergeOracle List.dedup
      mergeText ["100".toList]) = some "flexible main body".toList :=
  shortest_label_chosen.2.2 List.dedup
    (fun l => ⟨l.nodup_dedup, fun x => List.mem_dedup⟩)

/-- C6 witness: a detection without a bbox entry is skipped. -/
theorem filter_valid_skips_and_continues_witness :
    filter_valid_numbers [(⟨none, some ("7".toList, 9 / 10)⟩ : OcrLine)] = [] :=
  filter_valid_skips_and_continues.2.1 ⟨none, some ("7".toList, 9 / 10)⟩ (Or.inl rfl)
